import Mathlib

/-!
Verification of `export_db.py` (repository bookpotato).

The script (12 lines) brings the `json` module and the replit `db` handle
into scope, then runs:
```
  data = \x7b\x7d
  for key in db.keys():
      data[key] = db[key]

  with open('database_backup.json', 'w') as f:
      json.dump(data, f, indent=4)

  print("Database has been backed up to database_backup.json")
```

We shallowly embed the program.  Python values stored in the database are
modelled by `PyVal` (JSON-representable constructors plus `other` for a
value with no JSON mapping, which makes `json.dump` raise `TypeError`).
`dictInsert` mirrors Python dict assignment (replace in place, append new
keys at the end — insertion order is preserved).  `encVal` mirrors CPython
`json.dump(obj, fp, indent=4)`: `dump` iterates `iterencode` and writes each
chunk to the file as it is produced, so on a mid-serialization failure the
chunks already yielded have been written; `encVal` returns the emitted text
together with a success flag.  `runExport` is the whole program: enumerate
keys, build the dict, open the destination (truncating), stream the
serialization, and print the notice only on success.

A JSON value type `JVal`, a serializer `serV` (the total restriction of
`encVal` to representable values), and a recursive-descent parser
(`parseValue` and friends, fueled) let us state and prove round-trip
fidelity, syntactic validity and format properties of the written file.
-/

namespace ExportDb

/-- JSON values.  Numbers are modelled as arbitrary-precision integers
(Python `int`; `str(n)` is their JSON form).  Strings are lists of unicode
scalar values. -/
inductive JVal where
  | null : JVal
  | bool (b : Bool) : JVal
  | num (n : Int) : JVal
  | str (s : List Char) : JVal
  | arr (xs : List JVal) : JVal
  | obj (ms : List (List Char × JVal)) : JVal

/-- Python values that can sit in the store: the JSON-representable shapes
plus `other`, a value of a type with no JSON mapping (serializing it raises
`TypeError`, the spec's `SerializationError`). -/
inductive PyVal where
  | null : PyVal
  | bool (b : Bool) : PyVal
  | int (n : Int) : PyVal
  | str (s : List Char) : PyVal
  | list (xs : List PyVal) : PyVal
  | dict (ms : List (List Char × PyVal)) : PyVal
  | other : PyVal

mutual

/-- Conversion of a Python value to a JSON value; `none` when some part is
not JSON-representable. -/
def toJVal : PyVal → Option JVal
  | .null => some .null
  | .bool b => some (.bool b)
  | .int n => some (.num n)
  | .str s => some (.str s)
  | .list xs => (toJList xs).map .arr
  | .dict ms => (toJMembers ms).map .obj
  | .other => none

/-- Elementwise conversion of a list of Python values. -/
def toJList : List PyVal → Option (List JVal)
  | [] => some []
  | x :: xs =>
    match toJVal x, toJList xs with
    | some j, some js => some (j :: js)
    | _, _ => none

/-- Elementwise conversion of dict entries. -/
def toJMembers : List (List Char × PyVal) → Option (List (List Char × JVal))
  | [] => some []
  | (k, v) :: ms =>
    match toJVal v, toJMembers ms with
    | some j, some js => some ((k, j) :: js)
    | _, _ => none

end

/-- Assoc-list update with Python-dict semantics: an existing key is
updated in place (its position is kept), a new key is appended at the
end.  This is `d[k] = v` for a `dict` and also models writing a file into
a directory. -/
def setAssoc {α : Type} : List (List Char × α) → List Char → α → List (List Char × α)
  | [], k, v => [(k, v)]
  | p :: rest, k, v => if p.1 = k then (k, v) :: rest else p :: setAssoc rest k v

/-- Assoc-list lookup: value of the first entry whose key is `k`. -/
def getAssoc {α : Type} : List (List Char × α) → List Char → Option α
  | [], _ => none
  | p :: rest, k => if p.1 = k then some p.2 else getAssoc rest k

/-- The `for key in db.keys(): data[key] = db[key]` loop.  `read` is
`db.__getitem__`; a read failure (the store collaborator raising) aborts
the loop and propagates. -/
def buildData (read : List Char → Except Unit PyVal) :
    List (List Char) → List (List Char × PyVal) → Except Unit (List (List Char × PyVal))
  | [], acc => .ok acc
  | k :: ks, acc =>
    match read k with
    | .ok v => buildData read ks (setAssoc acc k v)
    | .error e => .error e

/-- The key-value store collaborator: `keys` is the result of `db.keys()`
(raising is modelled by `.error`), `read` is per-key lookup. -/
structure Store where
  keys : Except Unit (List (List Char))
  read : List Char → Except Unit PyVal

/-- The error taxonomy of the spec that the program can actually signal:
a store (connectivity) failure propagated from `db`, or `json`'s
`TypeError` for an unrepresentable value. -/
inductive ExportErr where
  | storeUnavailable : ExportErr
  | serializationError : ExportErr
deriving DecidableEq

/-- Decimal digit character for `n < 10`. -/
def digitCh (n : Nat) : Char :=
  if n = 0 then '0' else if n = 1 then '1' else if n = 2 then '2'
  else if n = 3 then '3' else if n = 4 then '4' else if n = 5 then '5'
  else if n = 6 then '6' else if n = 7 then '7' else if n = 8 then '8' else '9'

/-- Fueled digit extraction: `f` bounds the recursion depth (any `f > n`
is enough since `n / 10 < n` for `n ≥ 10`). -/
def natCharsF : Nat → Nat → List Char
  | 0, _ => []
  | f + 1, n => if n < 10 then [digitCh n] else natCharsF f (n / 10) ++ [digitCh (n % 10)]

/-- Decimal digits of a natural number, most significant first
(Python `str` of a nonnegative `int`). -/
def natChars (n : Nat) : List Char := natCharsF (n + 1) n

theorem natCharsF_congr : ∀ f1 f2 n, n < f1 → n < f2 → natCharsF f1 n = natCharsF f2 n := by
  intro f1
  induction f1 with
  | zero => intro f2 n h1; omega
  | succ f1 ih =>
    intro f2 n h1 h2
    obtain ⟨f3, rfl⟩ : ∃ f3, f2 = f3 + 1 := ⟨f2 - 1, by omega⟩
    rw [natCharsF, natCharsF]
    by_cases h : n < 10
    · rw [if_pos h, if_pos h]
    · rw [if_neg h, if_neg h, ih f3 (n / 10) (by omega) (by omega)]

/-- The recursive unfolding of `natChars`. -/
theorem natChars_eq (n : Nat) :
    natChars n = if n < 10 then [digitCh n] else natChars (n / 10) ++ [digitCh (n % 10)] := by
  rw [natChars, natCharsF]
  by_cases h : n < 10
  · rw [if_pos h, if_pos h]
  · rw [if_neg h, if_neg h, natChars,
      natCharsF_congr n (n / 10 + 1) (n / 10) (by omega) (by omega)]

/-- Python `str` of an `int`: optional minus sign then decimal digits. -/
def intChars : Int → List Char
  | .ofNat n => natChars n
  | .negSucc m => '-' :: natChars (m + 1)

/-- Lowercase hexadecimal digit character for `n < 16`
(CPython formats `\u` escapes with `%04x`). -/
def hexDig (n : Nat) : Char :=
  if n < 10 then digitCh n
  else if n = 10 then 'a' else if n = 11 then 'b' else if n = 12 then 'c'
  else if n = 13 then 'd' else if n = 14 then 'e' else 'f'

/-- Four lowercase hex digits of `n % 0x10000`. -/
def hex4 (n : Nat) : List Char :=
  [hexDig (n / 4096 % 16), hexDig (n / 256 % 16), hexDig (n / 16 % 16), hexDig (n % 16)]

/-- A `\uXXXX` escape. -/
def uEsc (n : Nat) : List Char :=
  '\\' :: 'u' :: hex4 n

/-- CPython `py_encode_basestring_ascii` on one character (`json.dump`
defaults to `ensure_ascii=True`): `"` and `\` and the five short control
escapes specially, other printable ASCII verbatim, everything else as
`\uXXXX`, with a surrogate pair for code points above `0xFFFF`. -/
def escChar (c : Char) : List Char :=
  if c = '"' then ['\\', '"']
  else if c = '\\' then ['\\', '\\']
  else if c = '\x08' then ['\\', 'b']
  else if c = '\x0c' then ['\\', 'f']
  else if c = '\n' then ['\\', 'n']
  else if c = '\r' then ['\\', 'r']
  else if c = '\t' then ['\\', 't']
  else if 0x20 ≤ c.toNat ∧ c.toNat ≤ 0x7e then [c]
  else if c.toNat < 0x10000 then uEsc c.toNat
  else uEsc (0xd800 + (c.toNat - 0x10000) / 1024) ++ uEsc (0xdc00 + (c.toNat - 0x10000) % 1024)

/-- JSON encoding of a Python string: quotes around the escaped characters. -/
def encStr (s : List Char) : List Char :=
  '"' :: (s.map escChar).flatten ++ ['"']

/-- `'\n' + indent * level`: the newline-plus-indentation chunk CPython's
iterencode emits when `indent` is given (`ind` is the indent width). -/
def nlind (ind lvl : Nat) : List Char :=
  '\n' :: List.replicate (ind * lvl) ' '

/-- The characters of the literal `null`. -/
def litNull : List Char := ['n', 'u', 'l', 'l']

/-- The characters of the literal `true`. -/
def litTrue : List Char := ['t', 'r', 'u', 'e']

/-- The characters of the literal `false`. -/
def litFalse : List Char := ['f', 'a', 'l', 's', 'e']

mutual

/-- CPython `_make_iterencode` on one value at indent level `lvl` with
indent width `ind`: the concatenation of the chunks yielded before either
finishing or raising `TypeError` on a value with no JSON mapping.  The
boolean is `true` on success; on failure the first component is the text
already emitted (and hence already written by `json.dump`). -/
def encVal (ind lvl : Nat) : PyVal → List Char × Bool
  | .null => (litNull, true)
  | .bool true => (litTrue, true)
  | .bool false => (litFalse, true)
  | .int n => (intChars n, true)
  | .str s => (encStr s, true)
  | .other => ([], false)
  | .list [] => (['[', ']'], true)
  | .list (x :: xs) =>
    let p := encVal ind (lvl + 1) x
    if p.2 then
      let q := encItems ind (lvl + 1) xs
      if q.2 then
        ('[' :: nlind ind (lvl + 1) ++ p.1 ++ q.1 ++ nlind ind lvl ++ [']'], true)
      else ('[' :: nlind ind (lvl + 1) ++ p.1 ++ q.1, false)
    else ('[' :: nlind ind (lvl + 1) ++ p.1, false)
  | .dict [] => (['{', '}'], true)
  | .dict ((k, v) :: ms) =>
    let p := encVal ind (lvl + 1) v
    if p.2 then
      let q := encMembers ind (lvl + 1) ms
      if q.2 then
        ('{' :: nlind ind (lvl + 1) ++ encStr k ++ ':' :: ' ' :: p.1 ++ q.1 ++
          nlind ind lvl ++ ['}'], true)
      else ('{' :: nlind ind (lvl + 1) ++ encStr k ++ ':' :: ' ' :: p.1 ++ q.1, false)
    else ('{' :: nlind ind (lvl + 1) ++ encStr k ++ ':' :: ' ' :: p.1, false)

/-- Chunks for the items of a list after the first, each preceded by the
separator `,` and the newline-indent chunk. -/
def encItems (ind lvl : Nat) : List PyVal → List Char × Bool
  | [] => ([], true)
  | x :: xs =>
    let p := encVal ind lvl x
    if p.2 then
      let q := encItems ind lvl xs
      (',' :: nlind ind lvl ++ p.1 ++ q.1, q.2)
    else (',' :: nlind ind lvl ++ p.1, false)

/-- Chunks for the entries of a dict after the first: separator,
newline-indent, encoded key, `: `, then the value. -/
def encMembers (ind lvl : Nat) : List (List Char × PyVal) → List Char × Bool
  | [] => ([], true)
  | (k, v) :: ms =>
    let p := encVal ind lvl v
    if p.2 then
      let q := encMembers ind lvl ms
      (',' :: nlind ind lvl ++ encStr k ++ ':' :: ' ' :: p.1 ++ q.1, q.2)
    else (',' :: nlind ind lvl ++ encStr k ++ ':' :: ' ' :: p.1, false)

end

/-- The fixed destination path `database_backup.json` (current working
directory). -/
def backupName : List Char := "database_backup.json".toList

/-- The success notice printed by the final line of the script. -/
def successMsg : List Char :=
  "Database has been backed up to database_backup.json".toList

/-- Observable outcome of one run: the directory contents (filename to
file text), the lines printed to stdout, and the uncaught exception if the
run terminated with one. -/
structure RunResult where
  fs : List (List Char × List Char)
  stdout : List (List Char)
  err : Option ExportErr
deriving DecidableEq

/-- The whole program.  `db.keys()` failing or any `db[key]` read failing
propagates before the destination is opened (the `with open(...)` line runs
only after the loop).  Opening truncates/creates the file; `json.dump`
streams chunks into it, so the file ends up with exactly the emitted text
whether or not serialization succeeded; the `print` runs only when no
exception was raised. -/
def runExport (st : Store) (fs0 : List (List Char × List Char)) : RunResult :=
  match st.keys with
  | .error _ => ⟨fs0, [], some .storeUnavailable⟩
  | .ok ks =>
    match buildData st.read ks [] with
    | .error _ => ⟨fs0, [], some .storeUnavailable⟩
    | .ok data =>
      let enc := encVal 4 0 (.dict data)
      if enc.2 then ⟨setAssoc fs0 backupName enc.1, [successMsg], none⟩
      else ⟨setAssoc fs0 backupName enc.1, [], some .serializationError⟩

mutual

/-- Total JSON serializer on `JVal`, same text as `encVal` produces on a
fully representable value (proved below). -/
def serV (ind lvl : Nat) : JVal → List Char
  | .null => litNull
  | .bool true => litTrue
  | .bool false => litFalse
  | .num n => intChars n
  | .str s => encStr s
  | .arr [] => ['[', ']']
  | .arr (x :: xs) =>
    '[' :: nlind ind (lvl + 1) ++ serV ind (lvl + 1) x ++ serItems ind (lvl + 1) xs ++
      nlind ind lvl ++ [']']
  | .obj [] => ['{', '}']
  | .obj ((k, v) :: ms) =>
    '{' :: nlind ind (lvl + 1) ++ encStr k ++ ':' :: ' ' :: serV ind (lvl + 1) v ++
      serMembers ind (lvl + 1) ms ++ nlind ind lvl ++ ['}']

/-- Serialized items of an array after the first. -/
def serItems (ind lvl : Nat) : List JVal → List Char
  | [] => []
  | x :: xs => ',' :: nlind ind lvl ++ serV ind lvl x ++ serItems ind lvl xs

/-- Serialized members of an object after the first. -/
def serMembers (ind lvl : Nat) : List (List Char × JVal) → List Char
  | [] => []
  | (k, v) :: ms =>
    ',' :: nlind ind lvl ++ encStr k ++ ':' :: ' ' :: serV ind lvl v ++ serMembers ind lvl ms

end

/-- JSON insignificant whitespace. -/
def isWsCh (c : Char) : Bool :=
  c = ' ' || c = '\n' || c = '\t' || c = '\r'

/-- Drop leading insignificant whitespace. -/
def skipWs : List Char → List Char
  | [] => []
  | c :: rest => if isWsCh c then skipWs rest else c :: rest

/-- ASCII decimal digit test. -/
def isDigitCh (c : Char) : Bool :=
  48 ≤ c.toNat && c.toNat ≤ 57

/-- Value of an ASCII decimal digit. -/
def digitVal (c : Char) : Nat := c.toNat - 48

/-- Consume a (possibly empty) run of digits, folding them onto `acc`. -/
def parseDigits (acc : Nat) : List Char → Nat × List Char
  | [] => (acc, [])
  | c :: rest =>
    if isDigitCh c then parseDigits (acc * 10 + digitVal c) rest else (acc, c :: rest)

/-- Parse a JSON natural-number literal: a single `0`, or a nonzero digit
followed by more digits (leading zeros are not valid JSON). -/
def parseNat : List Char → Option (Nat × List Char)
  | [] => none
  | c :: rest =>
    if c = '0' then some (0, rest)
    else if isDigitCh c then some (parseDigits 0 (c :: rest))
    else none

/-- Parse a JSON integer literal (the fragment of JSON numbers our
serializer emits; a parse success is a fortiori valid JSON). -/
def parseNumber : List Char → Option (Int × List Char)
  | [] => none
  | c :: rest =>
    if c = '-' then
      match parseNat rest with
      | some (n, r) => some (-(n : Int), r)
      | none => none
    else
      match parseNat (c :: rest) with
      | some (n, r) => some ((n : Int), r)
      | none => none

/-- Value of a hexadecimal digit character. -/
def parseHexDig (c : Char) : Option Nat :=
  if 48 ≤ c.toNat ∧ c.toNat ≤ 57 then some (c.toNat - 48)
  else if 97 ≤ c.toNat ∧ c.toNat ≤ 102 then some (c.toNat - 87)
  else if 65 ≤ c.toNat ∧ c.toNat ≤ 70 then some (c.toNat - 55)
  else none

/-- Prepend a decoded character to the result of parsing the rest of a
string body. -/
def pushChar (c : Char) : Option (List Char × List Char) → Option (List Char × List Char)
  | some (s, rest) => some (c :: s, rest)
  | none => none

/-- Decode a short (two-character) escape from the character after the
backslash. -/
def escShort (e : Char) : Option Char :=
  if e = '"' then some '"'
  else if e = '\\' then some '\\'
  else if e = '/' then some '/'
  else if e = 'b' then some '\x08'
  else if e = 'f' then some '\x0c'
  else if e = 'n' then some '\n'
  else if e = 'r' then some '\r'
  else if e = 't' then some '\t'
  else none

/-- Read exactly four hexadecimal digits. -/
def hex4At : List Char → Option (Nat × List Char)
  | [] => none
  | [_] => none
  | [_, _] => none
  | [_, _, _] => none
  | h1 :: h2 :: h3 :: h4 :: r =>
    match parseHexDig h1, parseHexDig h2, parseHexDig h3, parseHexDig h4 with
    | some a, some b, some c, some d => some (a * 4096 + b * 256 + c * 16 + d, r)
    | _, _, _, _ => none

/-- Decode a `\uXXXX` escape starting after the `u`; a high surrogate must
be followed by a `\u`-escaped low surrogate (the pair is combined), a lone
low surrogate is rejected. -/
def escU (s : List Char) : Option (Char × List Char) :=
  match hex4At s with
  | some (n, r) =>
    if 0xd800 ≤ n ∧ n < 0xdc00 then
      match r with
      | e2 :: u2 :: r2 =>
        if e2 = '\\' ∧ u2 = 'u' then
          match hex4At r2 with
          | some (m, r3) =>
            if 0xdc00 ≤ m ∧ m < 0xe000 then
              some (Char.ofNat (0x10000 + (n - 0xd800) * 1024 + (m - 0xdc00)), r3)
            else none
          | none => none
        else none
      | _ => none
    else if 0xdc00 ≤ n ∧ n < 0xe000 then none
    else some (Char.ofNat n, r)
  | none => none

/-- Decode one escape sequence from the character after the backslash. -/
def escDecode : List Char → Option (Char × List Char)
  | [] => none
  | e :: r =>
    match escShort e with
    | some d => some (d, r)
    | none => if e = 'u' then escU r else none

theorem hex4At_length {s r : List Char} {n : Nat} (h : hex4At s = some (n, r)) :
    r.length + 4 = s.length := by
  rcases s with _ | ⟨h1, _ | ⟨h2, _ | ⟨h3, _ | ⟨h4, rest⟩⟩⟩⟩ <;>
    simp only [hex4At] at h
  · exact absurd h (by simp)
  · exact absurd h (by simp)
  · exact absurd h (by simp)
  · exact absurd h (by simp)
  · rcases e1 : parseHexDig h1 with _ | a <;> rw [e1] at h <;>
      rcases e2 : parseHexDig h2 with _ | b <;> rw [e2] at h <;>
      rcases e3 : parseHexDig h3 with _ | c <;> rw [e3] at h <;>
      rcases e4 : parseHexDig h4 with _ | d <;> rw [e4] at h <;>
      simp only [Option.some.injEq, Prod.mk.injEq, reduceCtorEq] at h
    obtain ⟨-, rfl⟩ := h
    simp

theorem escU_length {s r : List Char} {d : Char} (h : escU s = some (d, r)) :
    r.length < s.length := by
  rw [escU] at h
  rcases e1 : hex4At s with _ | ⟨n, r1⟩ <;> rw [e1] at h <;> dsimp only at h
  · simp at h
  · have hl1 := hex4At_length e1
    by_cases hs : 0xd800 ≤ n ∧ n < 0xdc00
    · rw [if_pos hs] at h
      rcases r1 with _ | ⟨e2, _ | ⟨u2, r2⟩⟩
      · simp at h
      · simp at h
      · simp only at h
        by_cases he : e2 = '\\' ∧ u2 = 'u'
        · rw [if_pos he] at h
          rcases e5 : hex4At r2 with _ | ⟨m, r3⟩ <;> rw [e5] at h <;> dsimp only at h
          · simp at h
          · have hl2 := hex4At_length e5
            by_cases hm : 0xdc00 ≤ m ∧ m < 0xe000
            · rw [if_pos hm] at h
              simp only [Option.some.injEq, Prod.mk.injEq] at h
              obtain ⟨-, rfl⟩ := h
              simp only [List.length_cons] at hl1
              omega
            · rw [if_neg hm] at h
              simp at h
        · rw [if_neg he] at h
          simp at h
    · rw [if_neg hs] at h
      by_cases hlo : 0xdc00 ≤ n ∧ n < 0xe000
      · rw [if_pos hlo] at h
        simp at h
      · rw [if_neg hlo] at h
        simp only [Option.some.injEq, Prod.mk.injEq] at h
        obtain ⟨-, rfl⟩ := h
        omega

theorem escDecode_length {s r : List Char} {d : Char} (h : escDecode s = some (d, r)) :
    r.length < s.length := by
  rcases s with _ | ⟨e, rest⟩
  · simp [escDecode] at h
  · rw [escDecode] at h
    rcases e1 : escShort e with _ | d2 <;> rw [e1] at h
    · by_cases hu : e = 'u'
      · rw [if_pos hu] at h
        have := escU_length h
        simp only [List.length_cons]
        omega
      · rw [if_neg hu] at h
        simp at h
    · simp only [Option.some.injEq, Prod.mk.injEq] at h
      obtain ⟨-, rfl⟩ := h
      simp

/-- Parse a JSON string body (after the opening quote) up to and including
the closing quote, decoding escapes; surrogate pairs in `\u` escapes are
combined, lone surrogates and raw control characters are rejected. -/
def parseStrBody (s : List Char) : Option (List Char × List Char) :=
  match s with
  | [] => none
  | c :: rest =>
    if c = '"' then some ([], rest)
    else if c = '\\' then
      match h2 : escDecode rest with
      | some (d, r) => pushChar d (parseStrBody r)
      | none => none
    else if c.toNat < 0x20 then none
    else pushChar c (parseStrBody rest)
termination_by s.length
decreasing_by
  · have := escDecode_length h2
    simp only [List.length_cons]
    omega
  · simp

/-- Expect the tail `ull` of the literal `null`. -/
def parseNull : List Char → Option (JVal × List Char)
  | c1 :: c2 :: c3 :: r =>
    if c1 = 'u' ∧ c2 = 'l' ∧ c3 = 'l' then some (.null, r) else none
  | _ => none

/-- Expect the tail `rue` of the literal `true`. -/
def parseTrue : List Char → Option (JVal × List Char)
  | c1 :: c2 :: c3 :: r =>
    if c1 = 'r' ∧ c2 = 'u' ∧ c3 = 'e' then some (.bool true, r) else none
  | _ => none

/-- Expect the tail `alse` of the literal `false`. -/
def parseFalse : List Char → Option (JVal × List Char)
  | c1 :: c2 :: c3 :: c4 :: r =>
    if c1 = 'a' ∧ c2 = 'l' ∧ c3 = 's' ∧ c4 = 'e' then some (.bool false, r) else none
  | _ => none

mutual

/-- Fueled recursive-descent parser for a JSON value (the fragment our
serializer emits: the four literals, integers, strings, arrays, objects).
Leading insignificant whitespace is skipped.  Fuel bounds the recursion
depth; `none` on exhaustion. -/
def parseValue : Nat → List Char → Option (JVal × List Char)
  | 0, _ => none
  | f + 1, s =>
    match skipWs s with
    | [] => none
    | c :: rest =>
      if c = 'n' then parseNull rest
      else if c = 't' then parseTrue rest
      else if c = 'f' then parseFalse rest
      else if c = '"' then
        match parseStrBody rest with
        | some (s2, r) => some (.str s2, r)
        | none => none
      else if c = '[' then
        match skipWs rest with
        | [] => none
        | c2 :: r2 =>
          if c2 = ']' then some (.arr [], r2)
          else
            match parseItems f (c2 :: r2) with
            | some (vs, r3) => some (.arr vs, r3)
            | none => none
      else if c = '{' then
        match skipWs rest with
        | [] => none
        | c2 :: r2 =>
          if c2 = '}' then some (.obj [], r2)
          else
            match parseMembers f (c2 :: r2) with
            | some (ms, r3) => some (.obj ms, r3)
            | none => none
      else
        match parseNumber (c :: rest) with
        | some (i, r) => some (.num i, r)
        | none => none

/-- Parse the items of a nonempty array starting at the first item,
through the closing `]`. -/
def parseItems : Nat → List Char → Option (List JVal × List Char)
  | 0, _ => none
  | f + 1, s =>
    match parseValue f s with
    | some (v, r1) =>
      match skipWs r1 with
      | [] => none
      | c :: r2 =>
        if c = ',' then
          match parseItems f r2 with
          | some (vs, r3) => some (v :: vs, r3)
          | none => none
        else if c = ']' then some ([v], r2)
        else none
    | none => none

/-- Parse the members of a nonempty object starting at the first key,
through the closing `\x7d`. -/
def parseMembers : Nat → List Char → Option (List (List Char × JVal) × List Char)
  | 0, _ => none
  | f + 1, s =>
    match skipWs s with
    | [] => none
    | c :: rest =>
      if c = '"' then
        match parseStrBody rest with
        | some (k, r1) =>
          match skipWs r1 with
          | [] => none
          | c2 :: r2 =>
            if c2 = ':' then
              match parseValue f r2 with
              | some (v, r3) =>
                match skipWs r3 with
                | [] => none
                | c3 :: r4 =>
                  if c3 = ',' then
                    match parseMembers f r4 with
                    | some (ms, r5) => some ((k, v) :: ms, r5)
                    | none => none
                  else if c3 = '}' then some ([(k, v)], r4)
                  else none
              | none => none
            else none
        | none => none
      else none

end

/-- Parse a complete JSON document: one value, with nothing but
insignificant whitespace after it. -/
def parseJson (s : List Char) : Option JVal :=
  match parseValue (s.length + 1) s with
  | some (v, rest) => if skipWs rest = [] then some v else none
  | none => none

mutual

/-- Fuel sufficient for `parseValue` on the serialization of `v`. -/
def needV : JVal → Nat
  | .arr [] => 1
  | .arr (x :: xs) => 1 + (1 + max (needV x) (needI xs))
  | .obj [] => 1
  | .obj ((_, v) :: ms) => 1 + (1 + max (needV v) (needM ms))
  | _ => 1

/-- Fuel sufficient for `parseItems` on serialized trailing items. -/
def needI : List JVal → Nat
  | [] => 0
  | x :: xs => 1 + max (needV x) (needI xs)

/-- Fuel sufficient for `parseMembers` on serialized trailing members. -/
def needM : List (List Char × JVal) → Nat
  | [] => 0
  | (_, v) :: ms => 1 + max (needV v) (needM ms)

end

/-- A list that does not start with a decimal digit (so that a greedy
number parse just before it stops at the right place). -/
def NumOk (s : List Char) : Prop :=
  ∀ c, s.head? = some c → isDigitCh c = false

theorem numOk_nil : NumOk [] := by
  intro c h
  simp at h

theorem numOk_cons {c : Char} (h : isDigitCh c = false) (s : List Char) :
    NumOk (c :: s) := by
  intro d hd
  simp only [List.head?_cons, Option.some.injEq] at hd
  exact hd ▸ h

theorem char_ofNat_toNat (c : Char) : Char.ofNat c.toNat = c := by
  rcases c with ⟨⟨⟨n, hn⟩⟩, hv⟩
  simp only [Char.ofNat, Char.toNat]
  rw [dif_pos hv]
  rfl

theorem isDigitCh_digitCh {n : Nat} (h : n < 10) : isDigitCh (digitCh n) = true := by
  interval_cases n <;> decide

theorem digitVal_digitCh {n : Nat} (h : n < 10) : digitVal (digitCh n) = n := by
  interval_cases n <;> decide

theorem digitCh_ne_zero {n : Nat} (h : n < 10) (h1 : 1 ≤ n) : digitCh n ≠ '0' := by
  interval_cases n <;> decide

theorem toNat_lt_of_ws {c : Char} (h : isWsCh c = true) : c.toNat < 48 := by
  simp only [isWsCh, Bool.or_eq_true, decide_eq_true_eq] at h
  rcases h with ((h | h) | h) | h <;> subst h <;> decide

theorem not_ws_of_isDigit {c : Char} (h : isDigitCh c = true) : isWsCh c = false := by
  simp only [isDigitCh, Bool.and_eq_true, decide_eq_true_eq] at h
  by_contra hws
  have := toNat_lt_of_ws (by simpa using hws)
  omega

/-- Leading digits of `natChars n` folded onto an accumulator continue as
`parseDigits` of the remainder. -/
theorem parseDigits_natChars (n : Nat) :
    ∀ acc rest, parseDigits acc (natChars n ++ rest) =
      parseDigits (acc * 10 ^ (natChars n).length + n) rest := by
  induction n using Nat.strongRecOn with
  | _ n ih =>
    intro acc rest
    by_cases h : n < 10
    · rw [natChars_eq, if_pos h]
      simp only [List.cons_append, List.nil_append, List.length_cons, List.length_nil]
      rw [parseDigits, if_pos (isDigitCh_digitCh h), digitVal_digitCh h]
      norm_num
    · rw [natChars_eq, if_neg h]
      have hlt : n / 10 < n := by omega
      rw [List.append_assoc, List.cons_append, List.nil_append, ih (n / 10) hlt]
      rw [parseDigits, if_pos (isDigitCh_digitCh (by omega : n % 10 < 10)),
        digitVal_digitCh (by omega : n % 10 < 10)]
      have hmod : n / 10 * 10 + n % 10 = n := by omega
      have hlen : (natChars (n / 10) ++ [digitCh (n % 10)]).length =
          (natChars (n / 10)).length + 1 := by simp
      rw [hlen, pow_succ]
      ring_nf
      congr 1
      ring_nf
      omega

theorem parseDigits_stop {s : List Char} (h : NumOk s) (acc : Nat) :
    parseDigits acc s = (acc, s) := by
  cases s with
  | nil => rfl
  | cons c rest =>
    rw [parseDigits, if_neg]
    simp [h c rfl]

/-- `natChars n` starts with a digit, which is `'0'` exactly when `n = 0`. -/
theorem natChars_head (n : Nat) :
    ∃ d ds, natChars n = d :: ds ∧ isDigitCh d = true ∧ (1 ≤ n → d ≠ '0') := by
  induction n using Nat.strongRecOn with
  | _ n ih =>
    by_cases h : n < 10
    · refine ⟨digitCh n, [], by rw [natChars_eq, if_pos h], isDigitCh_digitCh h, ?_⟩
      intro h1
      exact digitCh_ne_zero h h1
    · obtain ⟨d, ds, heq, hdig, hnz⟩ := ih (n / 10) (by omega)
      refine ⟨d, ds ++ [digitCh (n % 10)], ?_, hdig, fun _ => hnz (by omega)⟩
      rw [natChars_eq, if_neg h, heq]
      simp

theorem parseNat_natChars (n : Nat) (rest : List Char) (h : NumOk rest) :
    parseNat (natChars n ++ rest) = some (n, rest) := by
  obtain ⟨d, ds, heq, hdig, hnz⟩ := natChars_head n
  rcases Nat.eq_zero_or_pos n with rfl | hpos
  · have : natChars 0 = ['0'] := rfl
    rw [this]
    simp only [List.cons_append, List.nil_append]
    rw [parseNat, if_pos rfl]
  · rw [heq]
    simp only [List.cons_append]
    rw [parseNat, if_neg (by simpa using hnz hpos), if_pos hdig, ← List.cons_append, ← heq,
      parseDigits_natChars, parseDigits_stop h]
    simp

theorem isDigitCh_ne_minus {c : Char} (h : isDigitCh c = true) : c ≠ '-' := by
  intro hc
  rw [hc] at h
  exact absurd h (by decide)

theorem parseNumber_intChars (i : Int) (rest : List Char) (h : NumOk rest) :
    parseNumber (intChars i ++ rest) = some (i, rest) := by
  cases i with
  | ofNat n =>
    obtain ⟨d, ds, heq, hdig, _⟩ := natChars_head n
    rw [intChars, heq]
    simp only [List.cons_append]
    rw [parseNumber, if_neg (by simpa using isDigitCh_ne_minus hdig), ← List.cons_append,
      ← heq, parseNat_natChars n rest h]
    rfl
  | negSucc m =>
    rw [intChars]
    simp only [List.cons_append]
    rw [parseNumber, if_pos rfl, parseNat_natChars (m + 1) rest h]
    simp [Int.negSucc_eq]

theorem parseHexDig_hexDig {n : Nat} (h : n < 16) : parseHexDig (hexDig n) = some n := by
  interval_cases n <;> decide

/-- Unicode scalar values never lie in the surrogate range. -/
theorem char_valid_nat (c : Char) :
    c.toNat < 0xd800 ∨ (0xdfff < c.toNat ∧ c.toNat < 0x110000) := by
  have h := c.valid
  exact h

theorem hex4At_hex4 {n : Nat} (h : n < 0x10000) (t : List Char) :
    hex4At (hex4 n ++ t) = some (n, t) := by
  show hex4At (hexDig (n / 4096 % 16) :: hexDig (n / 256 % 16) :: hexDig (n / 16 % 16) ::
    hexDig (n % 16) :: t) = some (n, t)
  rw [hex4At, parseHexDig_hexDig (by omega), parseHexDig_hexDig (by omega),
    parseHexDig_hexDig (by omega), parseHexDig_hexDig (by omega)]
  dsimp only
  simp only [Option.some.injEq, Prod.mk.injEq, and_true]
  omega

theorem escU_noSurrogate {n : Nat} (hlt : n < 0x10000) (hval : n < 0xd800 ∨ 0xe000 ≤ n)
    (t : List Char) : escU (hex4 n ++ t) = some (Char.ofNat n, t) := by
  rw [escU, hex4At_hex4 hlt]
  dsimp only
  rw [if_neg (by omega), if_neg (by omega)]

theorem escU_surrogatePair {v : Nat} (hge : 0x10000 ≤ v) (hlt : v < 0x110000)
    (t : List Char) :
    escU (hex4 (0xd800 + (v - 0x10000) / 1024) ++
      ('\\' :: 'u' :: (hex4 (0xdc00 + (v - 0x10000) % 1024) ++ t))) =
      some (Char.ofNat v, t) := by
  rw [escU, hex4At_hex4 (by omega)]
  dsimp only
  rw [if_pos ⟨by omega, by omega⟩, if_pos ⟨rfl, rfl⟩, hex4At_hex4 (by omega)]
  dsimp only
  rw [if_pos ⟨by omega, by omega⟩]
  have hcomb : 0x10000 + (0xd800 + (v - 0x10000) / 1024 - 0xd800) * 1024 +
      (0xdc00 + (v - 0x10000) % 1024 - 0xdc00) = v := by omega
  rw [hcomb]

theorem escDecode_u {s r : List Char} {c : Char} (h : escU s = some (c, r)) :
    escDecode ('u' :: s) = some (c, r) := by
  rw [escDecode, show escShort 'u' = none from by decide, if_pos rfl, h]

theorem parseStrBody_escChar (c : Char) (t : List Char) :
    parseStrBody (escChar c ++ t) = pushChar c (parseStrBody t) := by
  by_cases h1 : c = '"'
  · subst h1
    show parseStrBody ('\\' :: '"' :: t) = pushChar '"' (parseStrBody t)
    rw [parseStrBody]
    simp [escDecode, escShort]
  by_cases h2 : c = '\\'
  · subst h2
    show parseStrBody ('\\' :: '\\' :: t) = pushChar '\\' (parseStrBody t)
    rw [parseStrBody]
    simp [escDecode, escShort]
  by_cases h3 : c = '\x08'
  · subst h3
    show parseStrBody ('\\' :: 'b' :: t) = pushChar '\x08' (parseStrBody t)
    rw [parseStrBody]
    simp [escDecode, escShort]
  by_cases h4 : c = '\x0c'
  · subst h4
    show parseStrBody ('\\' :: 'f' :: t) = pushChar '\x0c' (parseStrBody t)
    rw [parseStrBody]
    simp [escDecode, escShort]
  by_cases h5 : c = '\n'
  · subst h5
    show parseStrBody ('\\' :: 'n' :: t) = pushChar '\n' (parseStrBody t)
    rw [parseStrBody]
    simp [escDecode, escShort]
  by_cases h6 : c = '\r'
  · subst h6
    show parseStrBody ('\\' :: 'r' :: t) = pushChar '\r' (parseStrBody t)
    rw [parseStrBody]
    simp [escDecode, escShort]
  by_cases h7 : c = '\t'
  · subst h7
    show parseStrBody ('\\' :: 't' :: t) = pushChar '\t' (parseStrBody t)
    rw [parseStrBody]
    simp [escDecode, escShort]
  by_cases h8 : 0x20 ≤ c.toNat ∧ c.toNat ≤ 0x7e
  · rw [escChar, if_neg h1, if_neg h2, if_neg h3, if_neg h4, if_neg h5, if_neg h6,
      if_neg h7, if_pos h8]
    rw [List.cons_append, List.nil_append, parseStrBody]
    rw [if_neg h1, if_neg h2, if_neg (by omega : ¬c.toNat < 0x20)]
  have hval := char_valid_nat c
  by_cases h9 : c.toNat < 0x10000
  · rw [escChar, if_neg h1, if_neg h2, if_neg h3, if_neg h4, if_neg h5, if_neg h6,
      if_neg h7, if_neg h8, if_pos h9]
    show parseStrBody ('\\' :: 'u' :: (hex4 c.toNat ++ t)) = pushChar c (parseStrBody t)
    rw [parseStrBody]
    rw [if_neg (by decide), if_pos rfl]
    rw [escDecode_u (escU_noSurrogate h9 (by omega) t), char_ofNat_toNat]
  · rw [escChar, if_neg h1, if_neg h2, if_neg h3, if_neg h4, if_neg h5, if_neg h6,
      if_neg h7, if_neg h8, if_neg h9]
    show parseStrBody ('\\' :: 'u' :: (hex4 (0xd800 + (c.toNat - 0x10000) / 1024) ++
      ('\\' :: 'u' :: (hex4 (0xdc00 + (c.toNat - 0x10000) % 1024) ++ t)))) =
      pushChar c (parseStrBody t)
    rw [parseStrBody]
    rw [if_neg (by decide), if_pos rfl]
    rw [escDecode_u (escU_surrogatePair (by omega) (by omega) t), char_ofNat_toNat]

/-- Round trip of the whole string encoder through the string-body parser. -/
theorem parseStrBody_encBody (s : List Char) (rest : List Char) :
    parseStrBody ((s.map escChar).flatten ++ '"' :: rest) = some (s, rest) := by
  induction s with
  | nil => simp [parseStrBody]
  | cons c cs ih =>
    rw [List.map_cons, List.flatten_cons, List.append_assoc, parseStrBody_escChar, ih]
    rfl

theorem skipWs_append_of_ws {pre : List Char} (h : ∀ c ∈ pre, isWsCh c = true)
    (s : List Char) : skipWs (pre ++ s) = skipWs s := by
  induction pre with
  | nil => rfl
  | cons c cs ih =>
    rw [List.cons_append, skipWs, if_pos (h c (by simp))]
    exact ih (fun d hd => h d (by simp [hd]))

theorem skipWs_not_ws {c : Char} (h : isWsCh c = false) (s : List Char) :
    skipWs (c :: s) = c :: s := by
  rw [skipWs, if_neg (by simp [h])]

theorem nlind_ws (ind lvl : Nat) : ∀ c ∈ nlind ind lvl, isWsCh c = true := by
  intro c hc
  rw [nlind] at hc
  rcases List.mem_cons.mp hc with rfl | hm
  · decide
  · rw [List.eq_of_mem_replicate hm]
    decide

theorem digit_ne_keys {c : Char} (h : isDigitCh c = true) :
    c ≠ ']' ∧ c ≠ '}' ∧ c ≠ 'n' ∧ c ≠ 't' ∧ c ≠ 'f' ∧ c ≠ '"' ∧ c ≠ '[' ∧ c ≠ '{' := by
  simp only [isDigitCh, Bool.and_eq_true, decide_eq_true_eq] at h
  repeat' apply And.intro
  all_goals (intro hc; rw [hc] at h; exact absurd h (by decide))

/-- The first character of a serialized value: never whitespace and never a
closing bracket. -/
theorem serV_head (ind lvl : Nat) (v : JVal) :
    ∃ c cs, serV ind lvl v = c :: cs ∧ isWsCh c = false ∧ c ≠ ']' ∧ c ≠ '}' := by
  cases v with
  | null =>
    refine ⟨'n', _, rfl, ?_, ?_, ?_⟩ <;> decide
  | bool b =>
    cases b with
    | true => refine ⟨'t', _, rfl, ?_, ?_, ?_⟩ <;> decide
    | false => refine ⟨'f', _, rfl, ?_, ?_, ?_⟩ <;> decide
  | num i =>
    cases i with
    | ofNat n =>
      obtain ⟨d, ds, heq, hdig, -⟩ := natChars_head n
      refine ⟨d, ds, ?_, not_ws_of_isDigit hdig, (digit_ne_keys hdig).1,
        (digit_ne_keys hdig).2.1⟩
      rw [serV, intChars, heq]
    | negSucc m => exact ⟨'-', _, by rw [serV, intChars], by decide, by decide, by decide⟩
  | str s => exact ⟨'"', _, rfl, by decide, by decide, by decide⟩
  | arr xs => cases xs with
    | nil => exact ⟨'[', _, rfl, by decide, by decide, by decide⟩
    | cons x xs => exact ⟨'[', _, rfl, by decide, by decide, by decide⟩
  | obj ms => cases ms with
    | nil => exact ⟨'{', _, rfl, by decide, by decide, by decide⟩
    | cons m ms =>
      rcases m with ⟨k, v⟩
      exact ⟨'{', _, rfl, by decide, by decide, by decide⟩

/-- Structural induction principle for `JVal` giving membership induction
hypotheses at the two nested-list constructors. -/
theorem jValInd (P : JVal → Prop) (h0 : P .null) (h1 : ∀ b, P (.bool b))
    (h2 : ∀ n, P (.num n)) (h3 : ∀ s, P (.str s))
    (h4 : ∀ xs, (∀ x ∈ xs, P x) → P (.arr xs))
    (h5 : ∀ ms, (∀ m ∈ ms, P m.2) → P (.obj ms)) : ∀ v, P v := by
  have key : ∀ k v, sizeOf v ≤ k → P v := by
    intro k
    induction k with
    | zero =>
      intro v hv
      cases v <;> simp at hv <;> omega
    | succ k ih =>
      intro v hv
      cases v with
      | null => exact h0
      | bool b => exact h1 b
      | num n => exact h2 n
      | str s => exact h3 s
      | arr xs =>
        refine h4 xs (fun x hx => ih x ?_)
        have hm := List.sizeOf_lt_of_mem hx
        have hsz : sizeOf (JVal.arr xs) = 1 + sizeOf xs := by simp
        omega
      | obj ms =>
        refine h5 ms (fun m hm => ih m.2 ?_)
        have hmem := List.sizeOf_lt_of_mem hm
        have hp : sizeOf m.2 < sizeOf m := by
          rcases m with ⟨a, b⟩
          simp
        have hsz : sizeOf (JVal.obj ms) = 1 + sizeOf ms := by simp
        omega
  intro v
  exact key (sizeOf v) v le_rfl

theorem numOk_nlind (ind lvl : Nat) (s : List Char) : NumOk (nlind ind lvl ++ s) := by
  rw [nlind, List.cons_append]
  exact numOk_cons (by decide) _

theorem parseValue_skipLead (f : Nat) {pre : List Char}
    (h : ∀ c ∈ pre, isWsCh c = true) (s : List Char) :
    parseValue f (pre ++ s) = parseValue f s := by
  cases f with
  | zero => rfl
  | succ f => rw [parseValue, parseValue, skipWs_append_of_ws h]

theorem parseItems_skipLead (f : Nat) {pre : List Char}
    (h : ∀ c ∈ pre, isWsCh c = true) (s : List Char) :
    parseItems f (pre ++ s) = parseItems f s := by
  cases f with
  | zero => rfl
  | succ f => rw [parseItems, parseItems, parseValue_skipLead f h]

theorem parseMembers_skipLead (f : Nat) {pre : List Char}
    (h : ∀ c ∈ pre, isWsCh c = true) (s : List Char) :
    parseMembers f (pre ++ s) = parseMembers f s := by
  cases f with
  | zero => rfl
  | succ f => rw [parseMembers, parseMembers, skipWs_append_of_ws h]

theorem encStr_append (k : List Char) (y : List Char) :
    encStr k ++ y = '"' :: ((k.map escChar).flatten ++ ('"' :: y)) := by
  rw [encStr]
  simp

/-- Round-trip property of one value: its serialization at any indent
level, followed by any non-digit-headed tail, parses back to exactly the
value with the tail untouched, for any sufficient fuel. -/
def RTv (v : JVal) : Prop :=
  ∀ f ind lvl rest, needV v ≤ f → NumOk rest →
    parseValue f (serV ind lvl v ++ rest) = some (v, rest)

theorem parseItems_ser (ind lvl : Nat) (xs : List JVal) :
    ∀ (x : JVal), RTv x → (∀ y ∈ xs, RTv y) →
    ∀ f rest, 1 + max (needV x) (needI xs) ≤ f → NumOk rest →
      parseItems f (serV ind (lvl + 1) x ++
        (serItems ind (lvl + 1) xs ++ (nlind ind lvl ++ (']' :: rest)))) =
        some (x :: xs, rest) := by
  induction xs with
  | nil =>
    intro x hx _ f rest hf hnum
    obtain ⟨f2, rfl⟩ : ∃ f2, f = f2 + 1 := ⟨f - 1, by omega⟩
    have hmx := Nat.le_max_left (needV x) (needI [])
    rw [serItems, List.nil_append, parseItems,
      hx f2 ind (lvl + 1) (nlind ind lvl ++ (']' :: rest)) (by omega)
        (numOk_nlind ind lvl _)]
    dsimp only
    rw [skipWs_append_of_ws (nlind_ws ind lvl), skipWs_not_ws (by decide)]
    dsimp only
    rw [if_neg (by decide), if_pos rfl]
  | cons y ys ih =>
    intro x hx hys f rest hf hnum
    obtain ⟨f2, rfl⟩ : ∃ f2, f = f2 + 1 := ⟨f - 1, by omega⟩
    have hmx := Nat.le_max_left (needV x) (needI (y :: ys))
    have hmi := Nat.le_max_right (needV x) (needI (y :: ys))
    rw [serItems]
    simp only [List.cons_append, List.append_assoc]
    rw [parseItems,
      hx f2 ind (lvl + 1)
        (',' :: (nlind ind (lvl + 1) ++ (serV ind (lvl + 1) y ++
          (serItems ind (lvl + 1) ys ++ (nlind ind lvl ++ (']' :: rest))))))
        (by omega) (numOk_cons (by decide) _)]
    dsimp only
    rw [skipWs_not_ws (by decide)]
    dsimp only
    rw [if_pos rfl, parseItems_skipLead f2 (nlind_ws ind (lvl + 1))]
    have hneed : 1 + max (needV y) (needI ys) ≤ f2 := by
      have e1 : needI (y :: ys) = 1 + max (needV y) (needI ys) := rfl
      omega
    rw [ih y (hys y (by simp)) (fun z hz => hys z (by simp [hz])) f2 rest hneed hnum]

theorem parseMembers_ser (ind lvl : Nat) (ms : List (List Char × JVal)) :
    ∀ (k : List Char) (v : JVal), RTv v → (∀ m ∈ ms, RTv m.2) →
    ∀ f rest, 1 + max (needV v) (needM ms) ≤ f → NumOk rest →
      parseMembers f ('"' :: ((k.map escChar).flatten ++ ('"' :: (':' :: (' ' ::
        (serV ind (lvl + 1) v ++ (serMembers ind (lvl + 1) ms ++
          (nlind ind lvl ++ ('}' :: rest))))))))) =
        some ((k, v) :: ms, rest) := by
  induction ms with
  | nil =>
    intro k v hv _ f rest hf hnum
    obtain ⟨f2, rfl⟩ : ∃ f2, f = f2 + 1 := ⟨f - 1, by omega⟩
    have hmx := Nat.le_max_left (needV v) (needM [])
    rw [serMembers, List.nil_append, parseMembers, skipWs_not_ws (by decide)]
    dsimp only
    rw [if_pos rfl, parseStrBody_encBody]
    dsimp only
    rw [skipWs_not_ws (by decide)]
    dsimp only
    rw [if_pos rfl]
    rw [show (' ' :: (serV ind (lvl + 1) v ++ (nlind ind lvl ++ ('}' :: rest)))) =
      [' '] ++ (serV ind (lvl + 1) v ++ (nlind ind lvl ++ ('}' :: rest))) from rfl]
    rw [parseValue_skipLead f2 (by intro c hc; simp at hc; rw [hc]; rfl),
      hv f2 ind (lvl + 1) (nlind ind lvl ++ ('}' :: rest)) (by omega)
        (numOk_nlind ind lvl _)]
    dsimp only
    rw [skipWs_append_of_ws (nlind_ws ind lvl), skipWs_not_ws (by decide)]
    dsimp only
    rw [if_neg (by decide), if_pos rfl]
  | cons m ms2 ih =>
    intro k v hv hms f rest hf hnum
    obtain ⟨f2, rfl⟩ : ∃ f2, f = f2 + 1 := ⟨f - 1, by omega⟩
    rcases m with ⟨k2, v2⟩
    have hmx := Nat.le_max_left (needV v) (needM ((k2, v2) :: ms2))
    have hmm := Nat.le_max_right (needV v) (needM ((k2, v2) :: ms2))
    rw [serMembers]
    simp only [List.cons_append, List.append_assoc]
    rw [parseMembers, skipWs_not_ws (by decide)]
    dsimp only
    rw [if_pos rfl, parseStrBody_encBody]
    dsimp only
    rw [skipWs_not_ws (by decide)]
    dsimp only
    rw [if_pos rfl]
    rw [show (' ' :: (serV ind (lvl + 1) v ++ (',' :: (nlind ind (lvl + 1) ++
      (encStr k2 ++ (':' :: (' ' :: (serV ind (lvl + 1) v2 ++
        (serMembers ind (lvl + 1) ms2 ++ (nlind ind lvl ++ ('}' :: rest)))))))))))  =
      [' '] ++ (serV ind (lvl + 1) v ++ (',' :: (nlind ind (lvl + 1) ++
      (encStr k2 ++ (':' :: (' ' :: (serV ind (lvl + 1) v2 ++
        (serMembers ind (lvl + 1) ms2 ++ (nlind ind lvl ++ ('}' :: rest)))))))))) from rfl]
    rw [parseValue_skipLead f2 (by intro c hc; simp at hc; rw [hc]; rfl),
      hv f2 ind (lvl + 1) _ (by omega) (numOk_cons (by decide) _)]
    dsimp only
    rw [skipWs_not_ws (by decide)]
    dsimp only
    rw [if_pos rfl, parseMembers_skipLead f2 (nlind_ws ind (lvl + 1)),
      encStr_append]
    have hneed : 1 + max (needV v2) (needM ms2) ≤ f2 := by
      have e1 : needM ((k2, v2) :: ms2) = 1 + max (needV v2) (needM ms2) := rfl
      omega
    rw [ih k2 v2 (hms (k2, v2) (by simp)) (fun z hz => hms z (by simp [hz])) f2 rest
      hneed hnum]

/-- Every serialized value round-trips through the parser. -/
theorem rtAll : ∀ v, RTv v := by
  refine jValInd RTv ?_ ?_ ?_ ?_ ?_ ?_
  · intro f ind lvl rest hf hnum
    obtain ⟨f2, rfl⟩ : ∃ f2, f = f2 + 1 :=
      ⟨f - 1, by have e1 : needV JVal.null = 1 := rfl; omega⟩
    rw [serV, litNull]
    simp only [List.cons_append, List.nil_append]
    rw [parseValue, skipWs_not_ws (by decide)]
    dsimp only
    rw [if_pos rfl, parseNull, if_pos ⟨rfl, rfl, rfl⟩]
  · intro b f ind lvl rest hf hnum
    obtain ⟨f2, rfl⟩ : ∃ f2, f = f2 + 1 :=
      ⟨f - 1, by have e1 : needV (JVal.bool b) = 1 := rfl; omega⟩
    cases b with
    | false =>
      rw [serV, litFalse]
      simp only [List.cons_append, List.nil_append]
      rw [parseValue, skipWs_not_ws (by decide)]
      dsimp only
      rw [if_neg (by decide), if_neg (by decide), if_pos rfl, parseFalse,
        if_pos ⟨rfl, rfl, rfl, rfl⟩]
    | true =>
      rw [serV, litTrue]
      simp only [List.cons_append, List.nil_append]
      rw [parseValue, skipWs_not_ws (by decide)]
      dsimp only
      rw [if_neg (by decide), if_pos rfl, parseTrue, if_pos ⟨rfl, rfl, rfl⟩]
  · intro n f ind lvl rest hf hnum
    obtain ⟨f2, rfl⟩ : ∃ f2, f = f2 + 1 :=
      ⟨f - 1, by have e1 : needV (JVal.num n) = 1 := rfl; omega⟩
    cases n with
    | ofNat m =>
      obtain ⟨d, ds, heq, hdig, -⟩ := natChars_head m
      obtain ⟨-, -, hd1, hd2, hd3, hd4, hd5, hd6⟩ := digit_ne_keys hdig
      rw [serV, intChars, heq]
      simp only [List.cons_append]
      rw [parseValue, skipWs_not_ws (not_ws_of_isDigit hdig)]
      dsimp only
      rw [if_neg hd1, if_neg hd2, if_neg hd3, if_neg hd4, if_neg hd5, if_neg hd6,
        ← List.cons_append, ← heq,
        show natChars m = intChars (Int.ofNat m) from by rw [intChars],
        parseNumber_intChars _ rest hnum]
    | negSucc m =>
      rw [serV, intChars]
      simp only [List.cons_append]
      rw [parseValue, skipWs_not_ws (by decide)]
      dsimp only
      rw [if_neg (by decide), if_neg (by decide), if_neg (by decide), if_neg (by decide),
        if_neg (by decide), if_neg (by decide),
        show ('-' :: (natChars (m + 1) ++ rest)) = intChars (Int.negSucc m) ++ rest from by
          rw [intChars]; simp,
        parseNumber_intChars _ rest hnum]
  · intro s f ind lvl rest hf hnum
    obtain ⟨f2, rfl⟩ : ∃ f2, f = f2 + 1 :=
      ⟨f - 1, by have e1 : needV (JVal.str s) = 1 := rfl; omega⟩
    rw [serV, encStr]
    simp only [List.cons_append, List.append_assoc, List.singleton_append, List.nil_append]
    rw [parseValue, skipWs_not_ws (by decide)]
    dsimp only
    rw [if_neg (by decide), if_neg (by decide), if_neg (by decide), if_pos rfl,
      parseStrBody_encBody]
  · intro xs hxs f ind lvl rest hf hnum
    cases xs with
    | nil =>
      obtain ⟨f2, rfl⟩ : ∃ f2, f = f2 + 1 :=
        ⟨f - 1, by have e1 : needV (JVal.arr []) = 1 := rfl; omega⟩
      rw [serV]
      simp only [List.cons_append, List.nil_append]
      rw [parseValue, skipWs_not_ws (by decide)]
      dsimp only
      rw [if_neg (by decide), if_neg (by decide), if_neg (by decide), if_neg (by decide),
        if_pos rfl, skipWs_not_ws (by decide)]
      dsimp only
      rw [if_pos rfl]
    | cons x xs2 =>
      obtain ⟨f2, rfl⟩ : ∃ f2, f = f2 + 1 :=
        ⟨f - 1, by
          have e1 : needV (JVal.arr (x :: xs2)) =
            1 + (1 + max (needV x) (needI xs2)) := rfl
          omega⟩
      rw [serV]
      simp only [List.cons_append, List.append_assoc, List.singleton_append,
        List.nil_append]
      rw [parseValue, skipWs_not_ws (by decide)]
      dsimp only
      rw [if_neg (by decide), if_neg (by decide), if_neg (by decide), if_neg (by decide),
        if_pos rfl, skipWs_append_of_ws (nlind_ws ind (lvl + 1))]
      obtain ⟨c0, cs0, heq0, hws0, hne1, hne2⟩ := serV_head ind (lvl + 1) x
      rw [heq0]
      simp only [List.cons_append]
      rw [skipWs_not_ws hws0]
      dsimp only
      rw [if_neg hne1, ← List.cons_append, ← heq0]
      have hfuel : 1 + max (needV x) (needI xs2) ≤ f2 := by
        have e1 : needV (JVal.arr (x :: xs2)) = 1 + (1 + max (needV x) (needI xs2)) := rfl
        omega
      rw [parseItems_ser ind lvl xs2 x (hxs x (by simp)) (fun y hy => hxs y (by simp [hy]))
        f2 rest hfuel hnum]
  · intro ms hms f ind lvl rest hf hnum
    cases ms with
    | nil =>
      obtain ⟨f2, rfl⟩ : ∃ f2, f = f2 + 1 :=
        ⟨f - 1, by have e1 : needV (JVal.obj []) = 1 := rfl; omega⟩
      rw [serV]
      simp only [List.cons_append, List.nil_append]
      rw [parseValue, skipWs_not_ws (by decide)]
      dsimp only
      rw [if_neg (by decide), if_neg (by decide), if_neg (by decide), if_neg (by decide),
        if_neg (by decide), if_pos rfl, skipWs_not_ws (by decide)]
      dsimp only
      rw [if_pos rfl]
    | cons m ms2 =>
      rcases m with ⟨k, v⟩
      obtain ⟨f2, rfl⟩ : ∃ f2, f = f2 + 1 :=
        ⟨f - 1, by
          have e1 : needV (JVal.obj ((k, v) :: ms2)) =
            1 + (1 + max (needV v) (needM ms2)) := rfl
          omega⟩
      rw [serV]
      simp only [List.cons_append, List.append_assoc, List.singleton_append,
        List.nil_append]
      rw [parseValue, skipWs_not_ws (by decide)]
      dsimp only
      rw [if_neg (by decide), if_neg (by decide), if_neg (by decide), if_neg (by decide),
        if_neg (by decide), if_pos rfl, skipWs_append_of_ws (nlind_ws ind (lvl + 1)),
        encStr_append, skipWs_not_ws (by decide)]
      dsimp only
      rw [if_neg (by decide)]
      have hfuel : 1 + max (needV v) (needM ms2) ≤ f2 := by
        have e1 : needV (JVal.obj ((k, v) :: ms2)) =
          1 + (1 + max (needV v) (needM ms2)) := rfl
        omega
      rw [parseMembers_ser ind lvl ms2 k v (hms (k, v) (by simp))
        (fun m hm => hms m (by simp [hm])) f2 rest hfuel hnum]

theorem nlind_length (ind lvl : Nat) : (nlind ind lvl).length = ind * lvl + 1 := by
  simp [nlind]

theorem encStr_length (k : List Char) : 2 ≤ (encStr k).length := by
  rw [encStr]
  simp

theorem needI_le (ind : Nat) (xs : List JVal)
    (h : ∀ x ∈ xs, ∀ lvl, needV x ≤ (serV ind lvl x).length) :
    ∀ lvl, needI xs ≤ (serItems ind lvl xs).length + 1 := by
  induction xs with
  | nil =>
    intro lvl
    have e1 : needI ([] : List JVal) = 0 := rfl
    omega
  | cons x xs ih =>
    intro lvl
    have h1 := h x (by simp) lvl
    have h2 := ih (fun y hy lvl2 => h y (by simp [hy]) lvl2) lvl
    have e1 : needI (x :: xs) = 1 + max (needV x) (needI xs) := rfl
    have e2 : serItems ind lvl (x :: xs) =
      ',' :: nlind ind lvl ++ serV ind lvl x ++ serItems ind lvl xs := rfl
    have hm : max (needV x) (needI xs) ≤ needV x + needI xs :=
      Nat.max_le.mpr ⟨Nat.le_add_right _ _, Nat.le_add_left _ _⟩
    rw [e1, e2]
    simp only [List.cons_append, List.length_cons, List.length_append]
    omega

theorem needM_le (ind : Nat) (ms : List (List Char × JVal))
    (h : ∀ m ∈ ms, ∀ lvl, needV m.2 ≤ (serV ind lvl m.2).length) :
    ∀ lvl, needM ms ≤ (serMembers ind lvl ms).length + 1 := by
  induction ms with
  | nil =>
    intro lvl
    have e1 : needM ([] : List (List Char × JVal)) = 0 := rfl
    omega
  | cons m ms ih =>
    intro lvl
    rcases m with ⟨k, v⟩
    have h1 := h (k, v) (by simp) lvl
    dsimp only at h1
    have h2 := ih (fun y hy lvl2 => h y (by simp [hy]) lvl2) lvl
    have e1 : needM ((k, v) :: ms) = 1 + max (needV v) (needM ms) := rfl
    have e2 : serMembers ind lvl ((k, v) :: ms) =
      ',' :: nlind ind lvl ++ encStr k ++ ':' :: ' ' :: serV ind lvl v ++
        serMembers ind lvl ms := rfl
    have hm : max (needV v) (needM ms) ≤ needV v + needM ms :=
      Nat.max_le.mpr ⟨Nat.le_add_right _ _, Nat.le_add_left _ _⟩
    rw [e1, e2]
    simp only [List.cons_append, List.length_cons, List.length_append]
    omega

theorem needV_le_length : ∀ (v : JVal) (ind lvl : Nat),
    needV v ≤ (serV ind lvl v).length := by
  refine jValInd (fun v => ∀ ind lvl, needV v ≤ (serV ind lvl v).length)
    ?_ ?_ ?_ ?_ ?_ ?_
  · intro ind lvl
    have e : serV ind lvl .null = ['n', 'u', 'l', 'l'] := rfl
    have e2 : needV .null = 1 := rfl
    rw [e, e2]
    simp
  · intro b ind lvl
    have e2 : needV (.bool b) = 1 := rfl
    cases b with
    | false =>
      have e : serV ind lvl (.bool false) = ['f', 'a', 'l', 's', 'e'] := rfl
      rw [e, e2]
      simp
    | true =>
      have e : serV ind lvl (.bool true) = ['t', 'r', 'u', 'e'] := rfl
      rw [e, e2]
      simp
  · intro n ind lvl
    have e2 : needV (.num n) = 1 := rfl
    rw [e2]
    cases n with
    | ofNat m =>
      obtain ⟨d, ds, heq, -, -⟩ := natChars_head m
      have e : serV ind lvl (.num (Int.ofNat m)) = natChars m := rfl
      rw [e, heq]
      simp
    | negSucc m =>
      have e : serV ind lvl (.num (Int.negSucc m)) = '-' :: natChars (m + 1) := rfl
      rw [e]
      simp
  · intro s ind lvl
    have e2 : needV (.str s) = 1 := rfl
    have e : serV ind lvl (.str s) = encStr s := rfl
    rw [e, e2]
    have := encStr_length s
    omega
  · intro xs hxs ind lvl
    cases xs with
    | nil =>
      have e : serV ind lvl (.arr []) = ['[', ']'] := rfl
      have e2 : needV (.arr []) = 1 := rfl
      rw [e, e2]
      simp
    | cons x xs2 =>
      have e : serV ind lvl (.arr (x :: xs2)) =
        '[' :: nlind ind (lvl + 1) ++ serV ind (lvl + 1) x ++
          serItems ind (lvl + 1) xs2 ++ nlind ind lvl ++ [']'] := rfl
      have e2 : needV (.arr (x :: xs2)) = 1 + (1 + max (needV x) (needI xs2)) := rfl
      have h1 := hxs x (by simp) ind (lvl + 1)
      have h2 := needI_le ind xs2 (fun y hy => hxs y (by simp [hy]) ind) (lvl + 1)
      have hm : max (needV x) (needI xs2) ≤ needV x + needI xs2 :=
        Nat.max_le.mpr ⟨Nat.le_add_right _ _, Nat.le_add_left _ _⟩
      rw [e, e2]
      simp only [List.cons_append, List.length_cons, List.length_append,
        List.length_singleton, List.length_nil, nlind_length]
      omega
  · intro ms hms ind lvl
    cases ms with
    | nil =>
      have e : serV ind lvl (.obj []) = ['{', '}'] := rfl
      have e2 : needV (.obj []) = 1 := rfl
      rw [e, e2]
      simp
    | cons m ms2 =>
      rcases m with ⟨k, v⟩
      have e : serV ind lvl (.obj ((k, v) :: ms2)) =
        '{' :: nlind ind (lvl + 1) ++ encStr k ++ ':' :: ' ' :: serV ind (lvl + 1) v ++
          serMembers ind (lvl + 1) ms2 ++ nlind ind lvl ++ ['}'] := rfl
      have e2 : needV (.obj ((k, v) :: ms2)) = 1 + (1 + max (needV v) (needM ms2)) := rfl
      have h1 := hms (k, v) (by simp) ind (lvl + 1)
      dsimp only at h1
      have h2 := needM_le ind ms2 (fun y hy => hms y (by simp [hy]) ind) (lvl + 1)
      have hm : max (needV v) (needM ms2) ≤ needV v + needM ms2 :=
        Nat.max_le.mpr ⟨Nat.le_add_right _ _, Nat.le_add_left _ _⟩
      rw [e, e2]
      simp only [List.cons_append, List.length_cons, List.length_append,
        List.length_singleton, List.length_nil, nlind_length]
      omega

/-- The serialization of any value at level 0 parses back to exactly that
value: the document round-trips. -/
theorem parseJson_serV (ind : Nat) (v : JVal) : parseJson (serV ind 0 v) = some v := by
  rw [parseJson]
  have h := rtAll v ((serV ind 0 v).length + 1) ind 0 []
    (by have := needV_le_length v ind 0; omega) numOk_nil
  rw [List.append_nil] at h
  rw [h]
  rfl

/-- Structural induction principle for `PyVal` giving membership induction
hypotheses at the two nested-list constructors. -/
theorem pyValInd (P : PyVal → Prop) (h0 : P .null) (h1 : ∀ b, P (.bool b))
    (h2 : ∀ n, P (.int n)) (h3 : ∀ s, P (.str s))
    (h4 : ∀ xs, (∀ x ∈ xs, P x) → P (.list xs))
    (h5 : ∀ ms, (∀ m ∈ ms, P m.2) → P (.dict ms))
    (h6 : P .other) : ∀ v, P v := by
  have key : ∀ k v, sizeOf v ≤ k → P v := by
    intro k
    induction k with
    | zero =>
      intro v hv
      cases v <;> simp at hv <;> omega
    | succ k ih =>
      intro v hv
      cases v with
      | null => exact h0
      | bool b => exact h1 b
      | int n => exact h2 n
      | str s => exact h3 s
      | other => exact h6
      | list xs =>
        refine h4 xs (fun x hx => ih x ?_)
        have hm := List.sizeOf_lt_of_mem hx
        have hsz : sizeOf (PyVal.list xs) = 1 + sizeOf xs := by simp
        omega
      | dict ms =>
        refine h5 ms (fun m hm => ih m.2 ?_)
        have hmem := List.sizeOf_lt_of_mem hm
        have hp : sizeOf m.2 < sizeOf m := by
          rcases m with ⟨a, b⟩
          simp
        have hsz : sizeOf (PyVal.dict ms) = 1 + sizeOf ms := by simp
        omega
  intro v
  exact key (sizeOf v) v le_rfl

/-- The specification of one value for the encoder-serializer connection. -/
def EncSpec (v : PyVal) : Prop :=
  ∀ ind lvl, (∀ j, toJVal v = some j → encVal ind lvl v = (serV ind lvl j, true)) ∧
    (toJVal v = none → (encVal ind lvl v).2 = false)

theorem encItems_eq (ind lvl : Nat) (xs : List PyVal) (h : ∀ x ∈ xs, EncSpec x) :
    (∀ js, toJList xs = some js → encItems ind lvl xs = (serItems ind lvl js, true)) ∧
    (toJList xs = none → (encItems ind lvl xs).2 = false) := by
  induction xs with
  | nil =>
    constructor
    · intro js hjs
      rw [toJList] at hjs
      obtain rfl : js = [] := by injection hjs with h; exact h.symm
      rfl
    · intro h0
      rw [toJList] at h0
      exact absurd h0 (by simp)
  | cons x xs ih =>
    have hx := h x (by simp)
    obtain ⟨ih1, ih2⟩ := ih (fun y hy => h y (by simp [hy]))
    constructor
    · intro js hjs
      rw [toJList] at hjs
      rcases e1 : toJVal x with _ | jx <;> rw [e1] at hjs <;> (try dsimp only at hjs)
      · exact absurd hjs (by simp)
      rcases e2 : toJList xs with _ | jxs <;> rw [e2] at hjs <;> (try dsimp only at hjs)
      · exact absurd hjs (by simp)
      obtain rfl : js = jx :: jxs := by
        simp only [Option.some.injEq] at hjs
        exact hjs.symm
      rw [encItems, (hx ind lvl).1 jx e1, ih1 jxs e2]
      rfl
    · intro h0
      rw [toJList] at h0
      rcases e1 : toJVal x with _ | jx <;> rw [e1] at h0 <;> (try dsimp only at h0)
      · rcases ep : encVal ind lvl x with ⟨p1, pb⟩
        have hpb : pb = false := by
          have := (hx ind lvl).2 e1
          rw [ep] at this
          exact this
        subst hpb
        rw [encItems, ep]
        simp
      rcases e2 : toJList xs with _ | jxs <;> rw [e2] at h0 <;> (try dsimp only at h0)
      · rcases ep : encVal ind lvl x with ⟨p1, pb⟩
        have hpb : pb = true := by
          have := (hx ind lvl).1 jx e1
          rw [ep] at this
          injection this with hfst hsnd
        subst hpb
        rcases eq2 : encItems ind lvl xs with ⟨q1, qb⟩
        have hqb : qb = false := by
          have := ih2 e2
          rw [eq2] at this
          exact this
        subst hqb
        rw [encItems, ep, eq2]
        simp
      · exact absurd h0 (by simp)

theorem encMembers_eq (ind lvl : Nat) (ms : List (List Char × PyVal))
    (h : ∀ m ∈ ms, EncSpec m.2) :
    (∀ js, toJMembers ms = some js →
      encMembers ind lvl ms = (serMembers ind lvl js, true)) ∧
    (toJMembers ms = none → (encMembers ind lvl ms).2 = false) := by
  induction ms with
  | nil =>
    constructor
    · intro js hjs
      rw [toJMembers] at hjs
      obtain rfl : js = [] := by injection hjs with h; exact h.symm
      rfl
    · intro h0
      rw [toJMembers] at h0
      exact absurd h0 (by simp)
  | cons m ms ih =>
    rcases m with ⟨k, v⟩
    have hx := h (k, v) (by simp)
    dsimp only at hx
    obtain ⟨ih1, ih2⟩ := ih (fun y hy => h y (by simp [hy]))
    constructor
    · intro js hjs
      rw [toJMembers] at hjs
      rcases e1 : toJVal v with _ | jv <;> rw [e1] at hjs <;> (try dsimp only at hjs)
      · exact absurd hjs (by simp)
      rcases e2 : toJMembers ms with _ | jms <;> rw [e2] at hjs <;> (try dsimp only at hjs)
      · exact absurd hjs (by simp)
      obtain rfl : js = (k, jv) :: jms := by
        simp only [Option.some.injEq] at hjs
        exact hjs.symm
      rw [encMembers, (hx ind lvl).1 jv e1, ih1 jms e2]
      rfl
    · intro h0
      rw [toJMembers] at h0
      rcases e1 : toJVal v with _ | jv <;> rw [e1] at h0 <;> (try dsimp only at h0)
      · rcases ep : encVal ind lvl v with ⟨p1, pb⟩
        have hpb : pb = false := by
          have := (hx ind lvl).2 e1
          rw [ep] at this
          exact this
        subst hpb
        rw [encMembers, ep]
        simp
      rcases e2 : toJMembers ms with _ | jms <;> rw [e2] at h0 <;> (try dsimp only at h0)
      · rcases ep : encVal ind lvl v with ⟨p1, pb⟩
        have hpb : pb = true := by
          have := (hx ind lvl).1 jv e1
          rw [ep] at this
          injection this with hfst hsnd
        subst hpb
        rcases eq2 : encMembers ind lvl ms with ⟨q1, qb⟩
        have hqb : qb = false := by
          have := ih2 e2
          rw [eq2] at this
          exact this
        subst hqb
        rw [encMembers, ep, eq2]
        simp
      · exact absurd h0 (by simp)

/-- `encVal` emits exactly the total serialization and succeeds on a
representable value, and reports failure on an unrepresentable one. -/
theorem encVal_spec : ∀ v : PyVal, EncSpec v := by
  refine pyValInd EncSpec ?_ ?_ ?_ ?_ ?_ ?_ ?_
  · intro ind lvl
    refine ⟨fun j hj => ?_, fun h0 => absurd h0 (by rw [toJVal]; simp)⟩
    obtain rfl : j = JVal.null := by
      rw [toJVal] at hj
      injection hj with h
      exact h.symm
    rfl
  · intro b ind lvl
    refine ⟨fun j hj => ?_, fun h0 => by exact absurd h0 (by rw [toJVal]; simp)⟩
    obtain rfl : j = JVal.bool b := by
      rw [toJVal] at hj
      injection hj with h
      exact h.symm
    cases b <;> rfl
  · intro n ind lvl
    refine ⟨fun j hj => ?_, fun h0 => by exact absurd h0 (by rw [toJVal]; simp)⟩
    obtain rfl : j = JVal.num n := by
      rw [toJVal] at hj
      injection hj with h
      exact h.symm
    rfl
  · intro s ind lvl
    refine ⟨fun j hj => ?_, fun h0 => by exact absurd h0 (by rw [toJVal]; simp)⟩
    obtain rfl : j = JVal.str s := by
      rw [toJVal] at hj
      injection hj with h
      exact h.symm
    rfl
  · intro xs hxs ind lvl
    obtain ⟨hi1, hi2⟩ := encItems_eq ind (lvl + 1) xs hxs
    constructor
    · intro j hj
      rw [toJVal] at hj
      rcases e : toJList xs with _ | js <;> rw [e] at hj
      · exact absurd hj (by simp)
      obtain rfl : j = JVal.arr js := by
        simp only [Option.map_some', Option.some.injEq] at hj
        exact hj.symm
      cases xs with
      | nil =>
        obtain rfl : js = [] := by
          rw [toJList] at e
          injection e with h
          exact h.symm
        rfl
      | cons x xs2 =>
        rw [toJList] at e
        rcases e1 : toJVal x with _ | jx <;> rw [e1] at e <;> (try dsimp only at e)
        · exact absurd e (by simp)
        rcases e2 : toJList xs2 with _ | jxs <;> rw [e2] at e <;> (try dsimp only at e)
        · exact absurd e (by simp)
        obtain rfl : js = jx :: jxs := by
          simp only [Option.some.injEq] at e
          exact e.symm
        obtain ⟨hj1, hj2⟩ := encItems_eq ind (lvl + 1) xs2
          (fun y hy => hxs y (by simp [hy]))
        rw [encVal, (hxs x (by simp) ind (lvl + 1)).1 jx e1, hj1 jxs e2]
        rfl
    · intro h0
      rw [toJVal] at h0
      have he : toJList xs = none := by
        rcases e : toJList xs with _ | js
        · rfl
        · rw [e] at h0
          exact absurd h0 (by simp)
      cases xs with
      | nil =>
        rw [toJList] at he
        exact absurd he (by simp)
      | cons x xs2 =>
        rw [toJList] at he
        rcases e1 : toJVal x with _ | jx <;> rw [e1] at he <;> (try dsimp only at he)
        · rcases ep : encVal ind (lvl + 1) x with ⟨p1, pb⟩
          have hpb : pb = false := by
            have := (hxs x (by simp) ind (lvl + 1)).2 e1
            rw [ep] at this
            exact this
          subst hpb
          rw [encVal, ep]
          simp
        rcases e2 : toJList xs2 with _ | jxs <;> rw [e2] at he <;> (try dsimp only at he)
        · rcases ep : encVal ind (lvl + 1) x with ⟨p1, pb⟩
          have hpb : pb = true := by
            have := (hxs x (by simp) ind (lvl + 1)).1 jx e1
            rw [ep] at this
            injection this with hfst hsnd
          subst hpb
          obtain ⟨hj1, hj2⟩ := encItems_eq ind (lvl + 1) xs2
            (fun y hy => hxs y (by simp [hy]))
          rcases eq2 : encItems ind (lvl + 1) xs2 with ⟨q1, qb⟩
          have hqb : qb = false := by
            have := hj2 e2
            rw [eq2] at this
            exact this
          subst hqb
          rw [encVal, ep, eq2]
          simp
        · exact absurd he (by simp)
  · intro ms hms ind lvl
    constructor
    · intro j hj
      rw [toJVal] at hj
      rcases e : toJMembers ms with _ | js <;> rw [e] at hj
      · exact absurd hj (by simp)
      obtain rfl : j = JVal.obj js := by
        simp only [Option.map_some', Option.some.injEq] at hj
        exact hj.symm
      cases ms with
      | nil =>
        obtain rfl : js = [] := by
          rw [toJMembers] at e
          injection e with h
          exact h.symm
        rfl
      | cons m ms2 =>
        rcases m with ⟨k, v⟩
        rw [toJMembers] at e
        rcases e1 : toJVal v with _ | jv <;> rw [e1] at e <;> (try dsimp only at e)
        · exact absurd e (by simp)
        rcases e2 : toJMembers ms2 with _ | jms <;> rw [e2] at e <;> (try dsimp only at e)
        · exact absurd e (by simp)
        obtain rfl : js = (k, jv) :: jms := by
          simp only [Option.some.injEq] at e
          exact e.symm
        obtain ⟨hj1, hj2⟩ := encMembers_eq ind (lvl + 1) ms2
          (fun y hy => hms y (by simp [hy]))
        rw [encVal, (hms (k, v) (by simp) ind (lvl + 1)).1 jv e1, hj1 jms e2]
        rfl
    · intro h0
      rw [toJVal] at h0
      have he : toJMembers ms = none := by
        rcases e : toJMembers ms with _ | js
        · rfl
        · rw [e] at h0
          exact absurd h0 (by simp)
      cases ms with
      | nil =>
        rw [toJMembers] at he
        exact absurd he (by simp)
      | cons m ms2 =>
        rcases m with ⟨k, v⟩
        rw [toJMembers] at he
        rcases e1 : toJVal v with _ | jv <;> rw [e1] at he <;> (try dsimp only at he)
        · rcases ep : encVal ind (lvl + 1) v with ⟨p1, pb⟩
          have hpb : pb = false := by
            have := (hms (k, v) (by simp) ind (lvl + 1)).2 e1
            rw [ep] at this
            exact this
          subst hpb
          rw [encVal, ep]
          simp
        rcases e2 : toJMembers ms2 with _ | jms <;> rw [e2] at he <;> (try dsimp only at he)
        · rcases ep : encVal ind (lvl + 1) v with ⟨p1, pb⟩
          have hpb : pb = true := by
            have := (hms (k, v) (by simp) ind (lvl + 1)).1 jv e1
            rw [ep] at this
            injection this with hfst hsnd
          subst hpb
          obtain ⟨hj1, hj2⟩ := encMembers_eq ind (lvl + 1) ms2
            (fun y hy => hms y (by simp [hy]))
          rcases eq2 : encMembers ind (lvl + 1) ms2 with ⟨q1, qb⟩
          have hqb : qb = false := by
            have := hj2 e2
            rw [eq2] at this
            exact this
          subst hqb
          rw [encVal, ep, eq2]
          simp
        · exact absurd he (by simp)
  · intro ind lvl
    refine ⟨fun j hj => ?_, fun h0 => rfl⟩
    rw [toJVal] at hj
    exact absurd hj (by simp)

theorem getAssoc_set_self {α : Type} (m : List (List Char × α)) (k : List Char) (v : α) :
    getAssoc (setAssoc m k v) k = some v := by
  induction m with
  | nil => rw [setAssoc, getAssoc, if_pos rfl]
  | cons p rest ih =>
    by_cases hp : p.1 = k
    · rw [setAssoc, if_pos hp, getAssoc, if_pos rfl]
    · rw [setAssoc, if_neg hp, getAssoc, if_neg hp]
      exact ih

theorem getAssoc_set_ne {α : Type} (m : List (List Char × α)) (k k2 : List Char) (v : α)
    (h : k2 ≠ k) : getAssoc (setAssoc m k v) k2 = getAssoc m k2 := by
  have hne : ¬(k = k2) := fun hc => h hc.symm
  induction m with
  | nil => simp [setAssoc, getAssoc, hne]
  | cons p rest ih =>
    by_cases hp : p.1 = k
    · have hp2 : ¬(p.1 = k2) := by
        rw [hp]
        exact hne
      rw [setAssoc, if_pos hp, getAssoc, if_neg hne, getAssoc, if_neg hp2]
    · rw [setAssoc, if_neg hp, getAssoc, getAssoc]
      by_cases hq : p.1 = k2
      · rw [if_pos hq, if_pos hq]
      · rw [if_neg hq, if_neg hq]
        exact ih

theorem keys_setAssoc {α : Type} (m : List (List Char × α)) (k : List Char) (v : α) :
    (setAssoc m k v).map Prod.fst =
      if k ∈ m.map Prod.fst then m.map Prod.fst else m.map Prod.fst ++ [k] := by
  induction m with
  | nil => simp [setAssoc]
  | cons p rest ih =>
    by_cases hp : p.1 = k
    · have hmem : k ∈ (p :: rest).map Prod.fst :=
        List.mem_map.mpr ⟨p, List.mem_cons_self p rest, hp⟩
      rw [setAssoc, if_pos hp, if_pos hmem, List.map_cons, List.map_cons, hp]
    · rw [setAssoc, if_neg hp]
      simp only [List.map_cons, ih, List.mem_cons]
      by_cases hk : k ∈ rest.map Prod.fst
      · rw [if_pos hk, if_pos (Or.inr hk)]
      · have hnm : ¬(k = p.1 ∨ k ∈ rest.map Prod.fst) := by
          rintro (hc | hc)
          · exact hp hc.symm
          · exact hk hc
        rw [if_neg hk, if_neg hnm]
        simp

theorem buildData_keys (read : List Char → Except Unit PyVal) :
    ∀ (ks : List (List Char)) (acc data : List (List Char × PyVal)),
      buildData read ks acc = .ok data →
      (∀ k, k ∈ data.map Prod.fst ↔ k ∈ acc.map Prod.fst ∨ k ∈ ks) ∧
      ((acc.map Prod.fst).Nodup → (data.map Prod.fst).Nodup) := by
  intro ks
  induction ks with
  | nil =>
    intro acc data hb
    obtain rfl : acc = data := by
      rw [buildData] at hb
      injection hb
    exact ⟨fun k => ⟨fun h => Or.inl h,
      fun h => h.elim id (fun hc => absurd hc (List.not_mem_nil k))⟩, fun h => h⟩
  | cons k0 ks ih =>
    intro acc data hb
    rw [buildData] at hb
    rcases er : read k0 with e | v <;> rw [er] at hb
    · exact absurd hb (by simp)
    obtain ⟨ihm, ihn⟩ := ih (setAssoc acc k0 v) data hb
    constructor
    · intro k
      rw [ihm k, keys_setAssoc]
      by_cases hk : k0 ∈ acc.map Prod.fst
      · rw [if_pos hk]
        constructor
        · rintro (hc | hc)
          · exact Or.inl hc
          · exact Or.inr (by simp [hc])
        · rintro (hc | hc)
          · exact Or.inl hc
          · rcases List.mem_cons.mp hc with rfl | hc2
            · exact Or.inl hk
            · exact Or.inr hc2
      · rw [if_neg hk]
        simp only [List.mem_append, List.mem_singleton, List.mem_cons]
        tauto
    · intro hnd
      refine ihn ?_
      rw [keys_setAssoc]
      by_cases hk : k0 ∈ acc.map Prod.fst
      · rw [if_pos hk]
        exact hnd
      · rw [if_neg hk]
        simp [List.nodup_append, hnd, hk]

theorem buildData_order (read : List Char → Except Unit PyVal) :
    ∀ (ks : List (List Char)) (acc data : List (List Char × PyVal)),
      (acc.map Prod.fst ++ ks).Nodup → buildData read ks acc = .ok data →
      data.map Prod.fst = acc.map Prod.fst ++ ks := by
  intro ks
  induction ks with
  | nil =>
    intro acc data hnd hb
    obtain rfl : acc = data := by
      rw [buildData] at hb
      injection hb
    simp
  | cons k0 ks ih =>
    intro acc data hnd hb
    rw [buildData] at hb
    rcases er : read k0 with e | v <;> rw [er] at hb
    · exact absurd hb (by simp)
    have hk0 : k0 ∉ acc.map Prod.fst := by
      intro hc
      rw [List.nodup_append] at hnd
      exact hnd.2.2 hc (by simp)
    have hkeys : (setAssoc acc k0 v).map Prod.fst = acc.map Prod.fst ++ [k0] := by
      rw [keys_setAssoc, if_neg hk0]
    have hnd2 : ((setAssoc acc k0 v).map Prod.fst ++ ks).Nodup := by
      rw [hkeys, List.append_assoc]
      simpa using hnd
    rw [ih (setAssoc acc k0 v) data hnd2 hb, hkeys, List.append_assoc]
    rfl

theorem buildData_lookup_preserve (read : List Char → Except Unit PyVal) :
    ∀ (ks : List (List Char)) (acc data : List (List Char × PyVal)),
      buildData read ks acc = .ok data →
      ∀ k, k ∉ ks → getAssoc data k = getAssoc acc k := by
  intro ks
  induction ks with
  | nil =>
    intro acc data hb k _
    obtain rfl : acc = data := by
      rw [buildData] at hb
      injection hb
    rfl
  | cons k0 ks ih =>
    intro acc data hb k hk
    rw [buildData] at hb
    rcases er : read k0 with e | v <;> rw [er] at hb
    · exact absurd hb (by simp)
    rw [ih (setAssoc acc k0 v) data hb k (fun hc => hk (by simp [hc]))]
    exact getAssoc_set_ne acc k0 k v (fun hc => hk (by simp [hc]))

theorem buildData_lookup (read : List Char → Except Unit PyVal) :
    ∀ (ks : List (List Char)) (acc data : List (List Char × PyVal)),
      buildData read ks acc = .ok data →
      ∀ k, k ∈ ks → ∃ v, read k = .ok v ∧ getAssoc data k = some v := by
  intro ks
  induction ks with
  | nil =>
    intro acc data _ k hk
    exact absurd hk (by simp)
  | cons k0 ks ih =>
    intro acc data hb k hk
    rw [buildData] at hb
    rcases er : read k0 with e | v <;> rw [er] at hb
    · exact absurd hb (by simp)
    by_cases hks : k ∈ ks
    · exact ih (setAssoc acc k0 v) data hb k hks
    · rcases List.mem_cons.mp hk with rfl | hc
      · refine ⟨v, er, ?_⟩
        rw [buildData_lookup_preserve read ks (setAssoc acc k v) data hb k hks]
        exact getAssoc_set_self acc k v
      · exact absurd hc hks

theorem buildData_err (read : List Char → Except Unit PyVal) :
    ∀ (ks : List (List Char)) (acc : List (List Char × PyVal)) (k : List Char) (e : Unit),
      k ∈ ks → read k = .error e → buildData read ks acc = .error () := by
  intro ks
  induction ks with
  | nil =>
    intro acc k e hk
    exact absurd hk (by simp)
  | cons k0 ks ih =>
    intro acc k e hk her
    rw [buildData]
    rcases er : read k0 with e2 | v
    · rfl
    · rcases List.mem_cons.mp hk with rfl | hc
      · rw [er] at her
        exact absurd her (by simp)
      · exact ih (setAssoc acc k0 v) k e hc her

theorem toJMembers_keys : ∀ (ms : List (List Char × PyVal)) (js : List (List Char × JVal)),
    toJMembers ms = some js → js.map Prod.fst = ms.map Prod.fst := by
  intro ms
  induction ms with
  | nil =>
    intro js hjs
    obtain rfl : js = [] := by
      rw [toJMembers] at hjs
      injection hjs with h
      exact h.symm
    rfl
  | cons m ms ih =>
    intro js hjs
    rcases m with ⟨k, v⟩
    rw [toJMembers] at hjs
    rcases e1 : toJVal v with _ | jv <;> rw [e1] at hjs <;> (try dsimp only at hjs)
    · exact absurd hjs (by simp)
    rcases e2 : toJMembers ms with _ | jms <;> rw [e2] at hjs <;> (try dsimp only at hjs)
    · exact absurd hjs (by simp)
    obtain rfl : js = (k, jv) :: jms := by
      simp only [Option.some.injEq] at hjs
      exact hjs.symm
    simp [ih jms e2]

theorem toJMembers_lookup :
    ∀ (ms : List (List Char × PyVal)) (js : List (List Char × JVal)) (k : List Char)
      (v : PyVal), toJMembers ms = some js → getAssoc ms k = some v →
      ∃ j, toJVal v = some j ∧ getAssoc js k = some j := by
  intro ms
  induction ms with
  | nil =>
    intro js k v _ hv
    rw [getAssoc] at hv
    exact absurd hv (by simp)
  | cons m ms ih =>
    intro js k v hjs hv
    rcases m with ⟨k2, v2⟩
    rw [toJMembers] at hjs
    rcases e1 : toJVal v2 with _ | jv <;> rw [e1] at hjs <;> (try dsimp only at hjs)
    · exact absurd hjs (by simp)
    rcases e2 : toJMembers ms with _ | jms <;> rw [e2] at hjs <;> (try dsimp only at hjs)
    · exact absurd hjs (by simp)
    obtain rfl : js = (k2, jv) :: jms := by
      simp only [Option.some.injEq] at hjs
      exact hjs.symm
    by_cases hk : k2 = k
    · rw [getAssoc, if_pos hk] at hv
      have hv2 : v2 = v := by
        injection hv
      refine ⟨jv, by rw [← hv2]; exact e1, ?_⟩
      rw [getAssoc, if_pos hk]
    · rw [getAssoc, if_neg hk] at hv
      obtain ⟨j, hj1, hj2⟩ := ih jms k v e2 hv
      refine ⟨j, hj1, ?_⟩
      rw [getAssoc, if_neg hk]
      exact hj2

theorem digitCh_ascii (n : Nat) : (digitCh n).toNat < 128 := by
  rw [digitCh]
  split_ifs <;> decide

theorem digitCh_ne_nl (n : Nat) : digitCh n ≠ '\n' := by
  rw [digitCh]
  split_ifs <;> decide

theorem hexDig_ascii (n : Nat) : (hexDig n).toNat < 128 := by
  rw [hexDig]
  split_ifs <;> first
    | exact digitCh_ascii n
    | decide

theorem hexDig_ne_nl (n : Nat) : hexDig n ≠ '\n' := by
  rw [hexDig]
  split_ifs <;> first
    | exact digitCh_ne_nl n
    | decide

theorem uEsc_safe (n : Nat) : ∀ d ∈ uEsc n, d.toNat < 128 ∧ d ≠ '\n' := by
  intro d hd
  rw [uEsc, hex4] at hd
  rcases List.mem_cons.mp hd with rfl | hd2
  · exact ⟨by decide, by decide⟩
  rcases List.mem_cons.mp hd2 with rfl | hd3
  · exact ⟨by decide, by decide⟩
  rcases List.mem_cons.mp hd3 with rfl | hd4
  · exact ⟨hexDig_ascii _, hexDig_ne_nl _⟩
  rcases List.mem_cons.mp hd4 with rfl | hd5
  · exact ⟨hexDig_ascii _, hexDig_ne_nl _⟩
  rcases List.mem_cons.mp hd5 with rfl | hd6
  · exact ⟨hexDig_ascii _, hexDig_ne_nl _⟩
  rcases List.mem_cons.mp hd6 with rfl | hd7
  · exact ⟨hexDig_ascii _, hexDig_ne_nl _⟩
  exact absurd hd7 (List.not_mem_nil d)

/-- Every character the escaper emits is ASCII and is not a raw newline. -/
theorem escChar_safe (c : Char) : ∀ d ∈ escChar c, d.toNat < 128 ∧ d ≠ '\n' := by
  intro d hd
  rw [escChar] at hd
  split_ifs at hd with h1 h2 h3 h4 h5 h6 h7 h8 h9
  · simp only [List.mem_cons, List.not_mem_nil, or_false] at hd
    rcases hd with rfl | rfl <;> exact ⟨by decide, by decide⟩
  · simp only [List.mem_cons, List.not_mem_nil, or_false] at hd
    rcases hd with rfl | rfl <;> exact ⟨by decide, by decide⟩
  · simp only [List.mem_cons, List.not_mem_nil, or_false] at hd
    rcases hd with rfl | rfl <;> exact ⟨by decide, by decide⟩
  · simp only [List.mem_cons, List.not_mem_nil, or_false] at hd
    rcases hd with rfl | rfl <;> exact ⟨by decide, by decide⟩
  · simp only [List.mem_cons, List.not_mem_nil, or_false] at hd
    rcases hd with rfl | rfl <;> exact ⟨by decide, by decide⟩
  · simp only [List.mem_cons, List.not_mem_nil, or_false] at hd
    rcases hd with rfl | rfl <;> exact ⟨by decide, by decide⟩
  · simp only [List.mem_cons, List.not_mem_nil, or_false] at hd
    rcases hd with rfl | rfl <;> exact ⟨by decide, by decide⟩
  · simp only [List.mem_singleton] at hd
    subst hd
    refine ⟨by omega, ?_⟩
    intro hc
    rw [hc] at h8
    exact absurd h8.1 (by decide)
  · exact uEsc_safe _ d hd
  · rcases List.mem_append.mp hd with hd2 | hd2
    · exact uEsc_safe _ d hd2
    · exact uEsc_safe _ d hd2

theorem encStr_safe (k : List Char) : ∀ d ∈ encStr k, d.toNat < 128 ∧ d ≠ '\n' := by
  intro d hd
  rw [encStr] at hd
  rcases List.mem_cons.mp hd with rfl | hd2
  · exact ⟨by decide, by decide⟩
  rcases List.mem_append.mp hd2 with hd3 | hd4
  · obtain ⟨l, hl, hdl⟩ := List.mem_flatten.mp hd3
    obtain ⟨c, _, rfl⟩ := List.mem_map.mp hl
    exact escChar_safe c d hdl
  · simp only [List.mem_singleton] at hd4
    subst hd4
    exact ⟨by decide, by decide⟩

theorem natChars_ascii (n : Nat) : ∀ d ∈ natChars n, d.toNat < 128 ∧ d ≠ '\n' := by
  induction n using Nat.strongRecOn with
  | _ n ih =>
    intro d hd
    by_cases h : n < 10
    · rw [natChars_eq, if_pos h] at hd
      simp only [List.mem_singleton] at hd
      subst hd
      exact ⟨digitCh_ascii n, digitCh_ne_nl n⟩
    · rw [natChars_eq, if_neg h] at hd
      rcases List.mem_append.mp hd with hd1 | hd2
      · exact ih (n / 10) (by omega) d hd1
      · simp only [List.mem_singleton] at hd2
        subst hd2
        exact ⟨digitCh_ascii _, digitCh_ne_nl _⟩

theorem intChars_safe (i : Int) : ∀ d ∈ intChars i, d.toNat < 128 ∧ d ≠ '\n' := by
  intro d hd
  cases i with
  | ofNat n => exact natChars_ascii n d (by rw [intChars] at hd; exact hd)
  | negSucc m =>
    rw [intChars] at hd
    rcases List.mem_cons.mp hd with rfl | hd2
    · exact ⟨by decide, by decide⟩
    · exact natChars_ascii (m + 1) d hd2

theorem nlind_ascii (ind lvl : Nat) : ∀ d ∈ nlind ind lvl, d.toNat < 128 := by
  intro d hd
  rw [nlind] at hd
  rcases List.mem_cons.mp hd with rfl | hd2
  · decide
  · rw [List.eq_of_mem_replicate hd2]
    decide

theorem serItems_ascii (ind : Nat) (xs : List JVal)
    (h : ∀ x ∈ xs, ∀ lvl, ∀ d ∈ serV ind lvl x, d.toNat < 128) :
    ∀ lvl, ∀ d ∈ serItems ind lvl xs, d.toNat < 128 := by
  induction xs with
  | nil =>
    intro lvl d hd
    have e2 : serItems ind lvl ([] : List JVal) = [] := rfl
    rw [e2] at hd
    exact absurd hd (List.not_mem_nil d)
  | cons y ys ihy =>
    intro lvl d hd
    have e2 : serItems ind lvl (y :: ys) =
      ',' :: nlind ind lvl ++ serV ind lvl y ++ serItems ind lvl ys := rfl
    rw [e2] at hd
    simp only [List.cons_append, List.mem_cons, List.mem_append] at hd
    rcases hd with rfl | (hin | hin) | hin
    · decide
    · exact nlind_ascii ind lvl d hin
    · exact h y (by simp) lvl d hin
    · exact ihy (fun z hz => h z (by simp [hz])) lvl d hin

theorem serMembers_ascii (ind : Nat) (ms : List (List Char × JVal))
    (h : ∀ m ∈ ms, ∀ lvl, ∀ d ∈ serV ind lvl m.2, d.toNat < 128) :
    ∀ lvl, ∀ d ∈ serMembers ind lvl ms, d.toNat < 128 := by
  induction ms with
  | nil =>
    intro lvl d hd
    have e2 : serMembers ind lvl ([] : List (List Char × JVal)) = [] := rfl
    rw [e2] at hd
    exact absurd hd (List.not_mem_nil d)
  | cons y ys ihy =>
    rcases y with ⟨k2, v2⟩
    intro lvl d hd
    have e2 : serMembers ind lvl ((k2, v2) :: ys) =
      ',' :: nlind ind lvl ++ encStr k2 ++ ':' :: ' ' :: serV ind lvl v2 ++
        serMembers ind lvl ys := rfl
    rw [e2] at hd
    simp only [List.cons_append, List.mem_cons, List.mem_append] at hd
    rcases hd with rfl | ((hin | hin) | rfl | rfl | hin) | hin
    · decide
    · exact nlind_ascii ind lvl d hin
    · exact (encStr_safe k2 d hin).1
    · decide
    · decide
    · exact h (k2, v2) (by simp) lvl d hin
    · exact ihy (fun z hz => h z (by simp [hz])) lvl d hin

/-- All characters of a serialized value are ASCII (`ensure_ascii=True`:
the output is plain ASCII and hence valid UTF-8 in any ASCII-compatible
encoding). -/
theorem serV_ascii : ∀ (v : JVal) (ind lvl : Nat), ∀ d ∈ serV ind lvl v, d.toNat < 128 := by
  refine jValInd (fun v => ∀ ind lvl, ∀ d ∈ serV ind lvl v, d.toNat < 128)
    ?_ ?_ ?_ ?_ ?_ ?_
  · intro ind lvl d hd
    have e : serV ind lvl .null = ['n', 'u', 'l', 'l'] := rfl
    rw [e] at hd
    simp only [List.mem_cons, List.not_mem_nil, or_false] at hd
    rcases hd with rfl | rfl | rfl | rfl <;> decide
  · intro b ind lvl d hd
    cases b with
    | false =>
      have e : serV ind lvl (.bool false) = ['f', 'a', 'l', 's', 'e'] := rfl
      rw [e] at hd
      simp only [List.mem_cons, List.not_mem_nil, or_false] at hd
      rcases hd with rfl | rfl | rfl | rfl | rfl <;> decide
    | true =>
      have e : serV ind lvl (.bool true) = ['t', 'r', 'u', 'e'] := rfl
      rw [e] at hd
      simp only [List.mem_cons, List.not_mem_nil, or_false] at hd
      rcases hd with rfl | rfl | rfl | rfl <;> decide
  · intro n ind lvl d hd
    have e : serV ind lvl (.num n) = intChars n := rfl
    rw [e] at hd
    exact (intChars_safe n d hd).1
  · intro s ind lvl d hd
    have e : serV ind lvl (.str s) = encStr s := rfl
    rw [e] at hd
    exact (encStr_safe s d hd).1
  · intro xs hxs ind lvl d hd
    cases xs with
    | nil =>
      have e : serV ind lvl (.arr []) = ['[', ']'] := rfl
      rw [e] at hd
      simp only [List.mem_cons, List.not_mem_nil, or_false] at hd
      rcases hd with rfl | rfl <;> decide
    | cons x xs2 =>
      have e : serV ind lvl (.arr (x :: xs2)) =
        '[' :: nlind ind (lvl + 1) ++ serV ind (lvl + 1) x ++
          serItems ind (lvl + 1) xs2 ++ nlind ind lvl ++ [']'] := rfl
      rw [e] at hd
      have hitems := serItems_ascii ind xs2 (fun z hz => hxs z (by simp [hz]) ind)
      simp only [List.cons_append, List.mem_cons, List.mem_append,
        List.not_mem_nil, or_false] at hd
      rcases hd with rfl | (((hin | hin) | hin) | hin) | rfl
      · decide
      · exact nlind_ascii ind (lvl + 1) d hin
      · exact hxs x (by simp) ind (lvl + 1) d hin
      · exact hitems (lvl + 1) d hin
      · exact nlind_ascii ind lvl d hin
      · decide
  · intro ms hms ind lvl d hd
    cases ms with
    | nil =>
      have e : serV ind lvl (.obj []) = ['{', '}'] := rfl
      rw [e] at hd
      simp only [List.mem_cons, List.not_mem_nil, or_false] at hd
      rcases hd with rfl | rfl <;> decide
    | cons m ms2 =>
      rcases m with ⟨k, v⟩
      have e : serV ind lvl (.obj ((k, v) :: ms2)) =
        '{' :: nlind ind (lvl + 1) ++ encStr k ++ ':' :: ' ' :: serV ind (lvl + 1) v ++
          serMembers ind (lvl + 1) ms2 ++ nlind ind lvl ++ ['}'] := rfl
      rw [e] at hd
      have hmems := serMembers_ascii ind ms2 (fun z hz => hms z (by simp [hz]) ind)
      simp only [List.cons_append, List.mem_cons, List.mem_append,
        List.not_mem_nil, or_false] at hd
      rcases hd with rfl | ((((hin | hin) | rfl | rfl | hin) | hin) | hin) | rfl
      · decide
      · exact nlind_ascii ind (lvl + 1) d hin
      · exact (encStr_safe k d hin).1
      · decide
      · decide
      · exact hms (k, v) (by simp) ind (lvl + 1) d hin
      · exact hmems (lvl + 1) d hin
      · exact nlind_ascii ind lvl d hin
      · decide

/-- Length of the leading run of spaces. -/
def leadSpaces : List Char → Nat
  | [] => 0
  | c :: r => if c = ' ' then leadSpaces r + 1 else 0

/-- Check that the run of spaces after every newline has length a multiple
of `w` — the observable shape of pretty-printing with a `w`-space indent
unit. -/
def chkIndent (w : Nat) : List Char → Bool
  | [] => true
  | c :: r =>
    if c = '\n' then
      decide (leadSpaces r % w = 0) && chkIndent w (r.drop (leadSpaces r))
    else chkIndent w r
termination_by s => s.length
decreasing_by
  · simp only [List.length_drop, List.length_cons]
    omega
  · simp

/-- A list whose head (if any) is not a space. -/
def HeadNS (b : List Char) : Prop :=
  ∀ c, b.head? = some c → c ≠ ' '

theorem headNS_nil : HeadNS [] := by
  intro c hc
  simp at hc

theorem headNS_cons {c : Char} (hc : c ≠ ' ') (l : List Char) : HeadNS (c :: l) := by
  intro d hd
  simp only [List.head?_cons, Option.some.injEq] at hd
  exact hd ▸ hc

theorem headNS_nlind (ind lvl : Nat) (s : List Char) : HeadNS (nlind ind lvl ++ s) := by
  rw [nlind, List.cons_append]
  exact headNS_cons (by decide) _

theorem chk_cons {c : Char} (hc : c ≠ '\n') (w : Nat) (b : List Char) :
    chkIndent w (c :: b) = chkIndent w b := by
  rw [chkIndent, if_neg hc]

theorem chk_skip {a : List Char} (h : ∀ c ∈ a, c ≠ '\n') (w : Nat) (b : List Char) :
    chkIndent w (a ++ b) = chkIndent w b := by
  induction a with
  | nil => rfl
  | cons c rest ih =>
    rw [List.cons_append, chk_cons (h c (by simp))]
    exact ih (fun d hd => h d (by simp [hd]))

theorem leadSpaces_replicate (n : Nat) (b : List Char) (hb : HeadNS b) :
    leadSpaces (List.replicate n ' ' ++ b) = n := by
  induction n with
  | zero =>
    simp only [List.replicate, List.nil_append]
    cases b with
    | nil => rfl
    | cons c r =>
      rw [leadSpaces, if_neg (hb c rfl)]
  | succ n ih =>
    rw [List.replicate, List.cons_append, leadSpaces, if_pos rfl, ih]

theorem chk_nlind (w lvl : Nat) (b : List Char) (hb : HeadNS b) :
    chkIndent w (nlind w lvl ++ b) = chkIndent w b := by
  rw [nlind, List.cons_append, chkIndent, if_pos rfl,
    leadSpaces_replicate (w * lvl) b hb]
  have hdrop : (List.replicate (w * lvl) ' ' ++ b).drop (w * lvl) = b :=
    List.drop_left' (List.length_replicate _ _)
  rw [hdrop, Nat.mul_mod_right]
  simp

/-- The property that serializing a value inserts only well-formed
indentation: checking the output (followed by any non-space-headed tail)
reduces to checking the tail. -/
def ChkV (v : JVal) : Prop :=
  ∀ w lvl b, HeadNS b → chkIndent w (serV w lvl v ++ b) = chkIndent w b

theorem serItems_chk (w : Nat) (xs : List JVal) (h : ∀ x ∈ xs, ChkV x) :
    ∀ lvl Y, HeadNS Y → chkIndent w (serItems w lvl xs ++ Y) = chkIndent w Y := by
  induction xs with
  | nil =>
    intro lvl Y _
    have e : serItems w lvl ([] : List JVal) = [] := rfl
    rw [e, List.nil_append]
  | cons y ys ih =>
    intro lvl Y hY
    have e : serItems w lvl (y :: ys) =
      ',' :: nlind w lvl ++ serV w lvl y ++ serItems w lvl ys := rfl
    rw [e]
    simp only [List.cons_append, List.append_assoc]
    rw [chk_cons (by decide)]
    obtain ⟨c0, cs0, heq0, hws0, -, -⟩ := serV_head w lvl y
    have hns : HeadNS (serV w lvl y ++ (serItems w lvl ys ++ Y)) := by
      rw [heq0, List.cons_append]
      refine headNS_cons ?_ _
      intro hc
      rw [hc] at hws0
      exact absurd hws0 (by decide)
    rw [chk_nlind w lvl _ hns]
    have hY2 : HeadNS (serItems w lvl ys ++ Y) := by
      cases ys with
      | nil => exact hY
      | cons z zs =>
        have e2 : serItems w lvl (z :: zs) =
          ',' :: nlind w lvl ++ serV w lvl z ++ serItems w lvl zs := rfl
        rw [e2]
        simp only [List.cons_append]
        exact headNS_cons (by decide) _
    rw [h y (by simp) w lvl _ hY2]
    exact ih (fun z hz => h z (by simp [hz])) lvl Y hY

theorem serMembers_chk (w : Nat) (ms : List (List Char × JVal))
    (h : ∀ m ∈ ms, ChkV m.2) :
    ∀ lvl Y, HeadNS Y → chkIndent w (serMembers w lvl ms ++ Y) = chkIndent w Y := by
  induction ms with
  | nil =>
    intro lvl Y _
    have e : serMembers w lvl ([] : List (List Char × JVal)) = [] := rfl
    rw [e, List.nil_append]
  | cons m ms2 ih =>
    rcases m with ⟨k, v⟩
    intro lvl Y hY
    have e : serMembers w lvl ((k, v) :: ms2) =
      ',' :: nlind w lvl ++ encStr k ++ ':' :: ' ' :: serV w lvl v ++
        serMembers w lvl ms2 := rfl
    rw [e]
    simp only [List.cons_append, List.append_assoc]
    rw [chk_cons (by decide)]
    have hns : HeadNS (encStr k ++ (':' :: (' ' :: (serV w lvl v ++
        (serMembers w lvl ms2 ++ Y))))) := by
      rw [encStr_append]
      exact headNS_cons (by decide) _
    rw [chk_nlind w lvl _ hns, chk_skip (fun d hd => (encStr_safe k d hd).2) w _,
      chk_cons (by decide), chk_cons (by decide)]
    have hY2 : HeadNS (serMembers w lvl ms2 ++ Y) := by
      cases ms2 with
      | nil => exact hY
      | cons z zs =>
        rcases z with ⟨k2, v2⟩
        have e2 : serMembers w lvl ((k2, v2) :: zs) =
          ',' :: nlind w lvl ++ encStr k2 ++ ':' :: ' ' :: serV w lvl v2 ++
            serMembers w lvl zs := rfl
        rw [e2]
        simp only [List.cons_append]
        exact headNS_cons (by decide) _
    rw [h (k, v) (by simp) w lvl _ hY2]
    exact ih (fun z hz => h z (by simp [hz])) lvl Y hY

/-- Serialization only ever lays down newline-plus-indent chunks whose
space runs are whole multiples of the indent unit. -/
theorem chkAll : ∀ v, ChkV v := by
  refine jValInd ChkV ?_ ?_ ?_ ?_ ?_ ?_
  · intro w lvl b _
    have e : serV w lvl .null = ['n', 'u', 'l', 'l'] := rfl
    rw [e]
    exact chk_skip (by decide) w b
  · intro bv w lvl b _
    cases bv with
    | false =>
      have e : serV w lvl (.bool false) = ['f', 'a', 'l', 's', 'e'] := rfl
      rw [e]
      exact chk_skip (by decide) w b
    | true =>
      have e : serV w lvl (.bool true) = ['t', 'r', 'u', 'e'] := rfl
      rw [e]
      exact chk_skip (by decide) w b
  · intro n w lvl b _
    exact chk_skip (fun d hd => (intChars_safe n d hd).2) w b
  · intro s w lvl b _
    exact chk_skip (fun d hd => (encStr_safe s d hd).2) w b
  · intro xs hxs w lvl b hb
    cases xs with
    | nil =>
      have e : serV w lvl (.arr []) = ['[', ']'] := rfl
      rw [e]
      exact chk_skip (by decide) w b
    | cons x xs2 =>
      have e : serV w lvl (.arr (x :: xs2)) =
        '[' :: nlind w (lvl + 1) ++ serV w (lvl + 1) x ++
          serItems w (lvl + 1) xs2 ++ nlind w lvl ++ [']'] := rfl
      rw [e]
      simp only [List.cons_append, List.append_assoc, List.singleton_append,
        List.nil_append]
      rw [chk_cons (by decide)]
      obtain ⟨c0, cs0, heq0, hws0, -, -⟩ := serV_head w (lvl + 1) x
      have hns : HeadNS (serV w (lvl + 1) x ++ (serItems w (lvl + 1) xs2 ++
          (nlind w lvl ++ (']' :: b)))) := by
        rw [heq0, List.cons_append]
        refine headNS_cons ?_ _
        intro hc
        rw [hc] at hws0
        exact absurd hws0 (by decide)
      rw [chk_nlind w (lvl + 1) _ hns]
      have hY2 : HeadNS (serItems w (lvl + 1) xs2 ++ (nlind w lvl ++ (']' :: b))) := by
        cases xs2 with
        | nil => exact headNS_nlind w lvl _
        | cons z zs =>
          have e2 : serItems w (lvl + 1) (z :: zs) =
            ',' :: nlind w (lvl + 1) ++ serV w (lvl + 1) z ++ serItems w (lvl + 1) zs := rfl
          rw [e2]
          simp only [List.cons_append]
          exact headNS_cons (by decide) _
      rw [hxs x (by simp) w (lvl + 1) _ hY2]
      rw [serItems_chk w xs2 (fun z hz => hxs z (by simp [hz])) (lvl + 1) _
        (headNS_nlind w lvl _)]
      rw [chk_nlind w lvl _ (headNS_cons (by decide) _)]
      rw [chk_cons (show (']' : Char) ≠ '\n' by decide)]
  · intro ms hms w lvl b hb
    cases ms with
    | nil =>
      have e : serV w lvl (.obj []) = ['{', '}'] := rfl
      rw [e]
      exact chk_skip (by decide) w b
    | cons m ms2 =>
      rcases m with ⟨k, v⟩
      have e : serV w lvl (.obj ((k, v) :: ms2)) =
        '{' :: nlind w (lvl + 1) ++ encStr k ++ ':' :: ' ' :: serV w (lvl + 1) v ++
          serMembers w (lvl + 1) ms2 ++ nlind w lvl ++ ['}'] := rfl
      rw [e]
      simp only [List.cons_append, List.append_assoc, List.singleton_append,
        List.nil_append]
      rw [chk_cons (by decide)]
      have hns : HeadNS (encStr k ++ (':' :: (' ' :: (serV w (lvl + 1) v ++
          (serMembers w (lvl + 1) ms2 ++ (nlind w lvl ++ ('}' :: b))))))) := by
        rw [encStr_append]
        exact headNS_cons (by decide) _
      rw [chk_nlind w (lvl + 1) _ hns,
        chk_skip (fun d hd => (encStr_safe k d hd).2) w _,
        chk_cons (by decide), chk_cons (by decide)]
      have hY2 : HeadNS (serMembers w (lvl + 1) ms2 ++ (nlind w lvl ++ ('}' :: b))) := by
        cases ms2 with
        | nil => exact headNS_nlind w lvl _
        | cons z zs =>
          rcases z with ⟨k2, v2⟩
          have e2 : serMembers w (lvl + 1) ((k2, v2) :: zs) =
            ',' :: nlind w (lvl + 1) ++ encStr k2 ++ ':' :: ' ' :: serV w (lvl + 1) v2 ++
              serMembers w (lvl + 1) zs := rfl
          rw [e2]
          simp only [List.cons_append]
          exact headNS_cons (by decide) _
      rw [hms (k, v) (by simp) w (lvl + 1) _ hY2]
      rw [serMembers_chk w ms2 (fun z hz => hms z (by simp [hz])) (lvl + 1) _
        (headNS_nlind w lvl _)]
      rw [chk_nlind w lvl _ (headNS_cons (by decide) _)]
      rw [chk_cons (show ('\x7d' : Char) ≠ '\n' by decide)]

/-- The indentation property of a whole serialized document. -/
theorem chkIndent_serV (w : Nat) (v : JVal) : chkIndent w (serV w 0 v) = true := by
  have h := chkAll v w 0 [] headNS_nil
  rw [List.append_nil] at h
  rw [h, chkIndent]

/-- Unfolding of a run whose enumeration and reads all succeeded. -/
theorem runExport_ok (st : Store) (fs0 : List (List Char × List Char))
    (ks : List (List Char)) (data : List (List Char × PyVal))
    (hk : st.keys = .ok ks) (hb : buildData st.read ks [] = .ok data) :
    runExport st fs0 =
      if (encVal 4 0 (.dict data)).2 then
        ⟨setAssoc fs0 backupName (encVal 4 0 (.dict data)).1, [successMsg], none⟩
      else
        ⟨setAssoc fs0 backupName (encVal 4 0 (.dict data)).1, [],
          some .serializationError⟩ := by
  rw [runExport, hk]
  dsimp only
  rw [hb]

/-- On a fully serializable data set the run succeeds and writes the
total serialization. -/
theorem runExport_success (st : Store) (fs0 : List (List Char × List Char))
    (ks : List (List Char)) (data : List (List Char × PyVal))
    (jdata : List (List Char × JVal)) (hk : st.keys = .ok ks)
    (hb : buildData st.read ks [] = .ok data) (hj : toJMembers data = some jdata) :
    runExport st fs0 =
      ⟨setAssoc fs0 backupName (serV 4 0 (.obj jdata)), [successMsg], none⟩ ∧
    (encVal 4 0 (.dict data)).1 = serV 4 0 (.obj jdata) := by
  have hjv : toJVal (.dict data) = some (.obj jdata) := by
    rw [toJVal, hj]
    rfl
  have henc := (encVal_spec (.dict data) 4 0).1 (.obj jdata) hjv
  rw [runExport_ok st fs0 ks data hk hb, henc]
  exact ⟨rfl, rfl⟩

/-- The concrete scenario of the spec: `score: 42, name: alice,
tags: [a, b]`. -/
def demoStore : Store where
  keys := .ok ["score".toList, "name".toList, "tags".toList]
  read := fun k =>
    if k = "score".toList then .ok (.int 42)
    else if k = "name".toList then .ok (.str "alice".toList)
    else if k = "tags".toList then .ok (.list [.str "a".toList, .str "b".toList])
    else .ok .null

def demoKeys : List (List Char) := ["score".toList, "name".toList, "tags".toList]

def demoData : List (List Char × PyVal) :=
  [("score".toList, .int 42), ("name".toList, .str "alice".toList),
   ("tags".toList, .list [.str "a".toList, .str "b".toList])]

def demoJ : List (List Char × JVal) :=
  [("score".toList, .num 42), ("name".toList, .str "alice".toList),
   ("tags".toList, .arr [.str "a".toList, .str "b".toList])]

/-- A store whose second value has no JSON mapping: serialization raises
after the chunks for the first entry and the second key were written. -/
def badStore : Store where
  keys := .ok ["a".toList, "b".toList]
  read := fun k => if k = "a".toList then .ok (.int 1) else .ok .other

/-- A store whose enumeration raises. -/
def downStore : Store where
  keys := .error ()
  read := fun _ => .ok .null

/-- A store with one unreadable key. -/
def flakyStore : Store where
  keys := .ok ["a".toList, "b".toList]
  read := fun k => if k = "a".toList then .ok (.int 1) else .error ()

/-- C1: every key set yielded by the enumeration is exactly the key set of
the exported mapping and of the top-level JSON object written to the
destination file — no omissions, no extras, no duplicates. -/
theorem exported_mapping_complete (st : Store) (fs0 : List (List Char × List Char))
    (ks : List (List Char)) (data : List (List Char × PyVal))
    (jdata : List (List Char × JVal)) (hk : st.keys = .ok ks)
    (hb : buildData st.read ks [] = .ok data) (hj : toJMembers data = some jdata) :
    (∀ k, k ∈ data.map Prod.fst ↔ k ∈ ks) ∧ (data.map Prod.fst).Nodup ∧
    (∀ k, k ∈ jdata.map Prod.fst ↔ k ∈ ks) ∧ (jdata.map Prod.fst).Nodup ∧
    parseJson (serV 4 0 (.obj jdata)) = some (.obj jdata) ∧
    (runExport st fs0).fs = setAssoc fs0 backupName (serV 4 0 (.obj jdata)) := by
  obtain ⟨hm, hn⟩ := buildData_keys st.read ks [] data hb
  have hkeys := toJMembers_keys data jdata hj
  have hnod : (data.map Prod.fst).Nodup := hn (by simp)
  obtain ⟨hrun, -⟩ := runExport_success st fs0 ks data jdata hk hb hj
  refine ⟨fun k => ?_, hnod, fun k => ?_, ?_, parseJson_serV 4 (.obj jdata), ?_⟩
  · rw [hm k]
    simp
  · rw [hkeys, hm k]
    simp
  · rw [hkeys]
    exact hnod
  · rw [hrun]

theorem exported_mapping_complete_witness :
    demoStore.keys = .ok demoKeys ∧ buildData demoStore.read demoKeys [] = .ok demoData ∧
    toJMembers demoData = some demoJ ∧
    ((∀ k, k ∈ demoData.map Prod.fst ↔ k ∈ demoKeys) ∧ (demoData.map Prod.fst).Nodup ∧
      (∀ k, k ∈ demoJ.map Prod.fst ↔ k ∈ demoKeys) ∧ (demoJ.map Prod.fst).Nodup ∧
      parseJson (serV 4 0 (.obj demoJ)) = some (.obj demoJ) ∧
      (runExport demoStore []).fs = setAssoc [] backupName (serV 4 0 (.obj demoJ))) :=
  ⟨rfl, rfl, rfl, exported_mapping_complete demoStore [] demoKeys demoData demoJ rfl rfl rfl⟩

/-- C2: the run writes a JSON document that parses back to exactly the
object whose entry at every enumerated key is the JSON image of the value
the store returned for that key at read time. -/
theorem export_fidelity (st : Store) (fs0 : List (List Char × List Char))
    (ks : List (List Char)) (data : List (List Char × PyVal))
    (jdata : List (List Char × JVal)) (hk : st.keys = .ok ks)
    (hb : buildData st.read ks [] = .ok data) (hj : toJMembers data = some jdata) :
    runExport st fs0 =
      ⟨setAssoc fs0 backupName (serV 4 0 (.obj jdata)), [successMsg], none⟩ ∧
    parseJson (serV 4 0 (.obj jdata)) = some (.obj jdata) ∧
    (∀ k v, k ∈ ks → st.read k = .ok v →
      ∃ j, toJVal v = some j ∧ getAssoc jdata k = some j) := by
  obtain ⟨hrun, -⟩ := runExport_success st fs0 ks data jdata hk hb hj
  refine ⟨hrun, parseJson_serV 4 (.obj jdata), fun k v hkm hr => ?_⟩
  obtain ⟨v2, hv2, hget⟩ := buildData_lookup st.read ks [] data hb k hkm
  have hveq : v2 = v := by
    rw [hr] at hv2
    injection hv2 with h
    exact h.symm
  subst hveq
  exact toJMembers_lookup data jdata k v2 hj hget

theorem export_fidelity_witness :
    demoStore.keys = .ok demoKeys ∧ buildData demoStore.read demoKeys [] = .ok demoData ∧
    toJMembers demoData = some demoJ ∧
    (runExport demoStore [] =
      ⟨setAssoc [] backupName (serV 4 0 (.obj demoJ)), [successMsg], none⟩ ∧
      parseJson (serV 4 0 (.obj demoJ)) = some (.obj demoJ) ∧
      (∀ k v, k ∈ demoKeys → demoStore.read k = .ok v →
        ∃ j, toJVal v = some j ∧ getAssoc demoJ k = some j)) :=
  ⟨rfl, rfl, rfl, export_fidelity demoStore [] demoKeys demoData demoJ rfl rfl rfl⟩

/-- C3: when the enumeration call fails, the run touches no file, prints
nothing, and terminates with the store-unavailable failure. -/
theorem export_enumeration_failure (st : Store) (fs0 : List (List Char × List Char))
    (e : Unit) (hk : st.keys = .error e) :
    runExport st fs0 = ⟨fs0, [], some .storeUnavailable⟩ := by
  rw [runExport, hk]

theorem export_enumeration_failure_witness :
    downStore.keys = .error () ∧
    runExport downStore [(backupName, "old".toList)] =
      ⟨[(backupName, "old".toList)], [], some ExportErr.storeUnavailable⟩ :=
  ⟨rfl, export_enumeration_failure downStore [(backupName, "old".toList)] () rfl⟩

/-- C4 counterexample: a store whose second value is unserializable leaves
the destination file holding a nonempty proper prefix of a JSON document —
not valid JSON, and not nothing — refuting "either the complete serialized
text is written or nothing is". -/
theorem export_partial_write_counterexample :
    (runExport badStore []).err = some ExportErr.serializationError ∧
    getAssoc (runExport badStore []).fs backupName =
      some "\x7b\n    \"a\": 1,\n    \"b\": ".toList ∧
    "\x7b\n    \"a\": 1,\n    \"b\": ".toList ≠ ([] : List Char) ∧
    parseJson "\x7b\n    \"a\": 1,\n    \"b\": ".toList = none := by
  refine ⟨rfl, by decide, by decide, ?_⟩
  have hform : "\x7b\n    \"a\": 1,\n    \"b\": ".toList =
      '\x7b' :: (nlind 4 1 ++ (encStr ['a'] ++ (':' :: (' ' :: (intChars 1 ++
        (',' :: (nlind 4 1 ++ (encStr ['b'] ++ [':', ' '])))))))) := by decide
  have hlen : ("\x7b\n    \"a\": 1,\n    \"b\": ".toList).length = 23 := by decide
  rw [parseJson, hlen, hform]
  have hv1 := rtAll (.num 1) 22 4 1
    (',' :: (nlind 4 1 ++ (encStr ['b'] ++ [':', ' '])))
    (by have e1 : needV (JVal.num 1) = 1 := rfl; omega)
    (numOk_cons (by decide) _)
  have e1 : serV 4 1 (JVal.num 1) = intChars 1 := rfl
  rw [e1] at hv1
  have hmem : parseMembers 23 ('"' :: ((['a'].map escChar).flatten ++ ('"' :: (':' :: (' ' ::
      (intChars 1 ++ (',' :: (nlind 4 1 ++ (encStr ['b'] ++ [':', ' '])))))))))
      = none := by
    rw [parseMembers, skipWs_not_ws (by decide)]
    dsimp only
    rw [if_pos rfl, parseStrBody_encBody]
    dsimp only
    rw [skipWs_not_ws (by decide)]
    dsimp only
    rw [if_pos rfl]
    rw [show (' ' :: (intChars 1 ++ (',' :: (nlind 4 1 ++ (encStr ['b'] ++ [':', ' ']))))) =
      [' '] ++ (intChars 1 ++ (',' :: (nlind 4 1 ++ (encStr ['b'] ++ [':', ' '])))) from rfl]
    rw [parseValue_skipLead 22 (by intro c hc; simp at hc; rw [hc]; rfl), hv1]
    dsimp only
    rw [skipWs_not_ws (by decide)]
    dsimp only
    rw [if_pos rfl, parseMembers_skipLead 22 (nlind_ws 4 1), encStr_append]
    have hmem2 : parseMembers 22 ('"' :: ((['b'].map escChar).flatten ++
        ('"' :: [':', ' ']))) = none := by
      rw [parseMembers, skipWs_not_ws (by decide)]
      dsimp only
      rw [if_pos rfl, parseStrBody_encBody]
      dsimp only
      rw [skipWs_not_ws (by decide)]
      dsimp only
      rw [if_pos rfl]
      rw [show ([' '] : List Char) = [' '] ++ [] from rfl,
        parseValue_skipLead 21 (by intro c hc; simp at hc; rw [hc]; rfl)]
      rw [show (21 : Nat) = 20 + 1 from rfl, parseValue]
      rfl
    rw [hmem2]
  rw [parseValue, skipWs_not_ws (by decide)]
  dsimp only
  rw [if_neg (by decide), if_neg (by decide), if_neg (by decide), if_neg (by decide),
    if_neg (by decide), if_pos rfl, skipWs_append_of_ws (nlind_ws 4 1), encStr_append,
    skipWs_not_ws (by decide)]
  dsimp only
  rw [if_neg (by decide), hmem]

/-- C4 amended: the exporter streams serializer chunks into the (already
truncated) destination, so after any run that reaches the write phase the
file holds exactly the text emitted up to the point of failure — the
complete document when serialization succeeds, a partial prefix when it
raises partway.  The handle is released (the content is flushed) on both
exit paths. -/
theorem export_write_emitted (st : Store)
    (fs0 : List (List Char × List Char)) (ks : List (List Char))
    (data : List (List Char × PyVal)) (hk : st.keys = .ok ks)
    (hb : buildData st.read ks [] = .ok data) :
    getAssoc (runExport st fs0).fs backupName = some (encVal 4 0 (.dict data)).1 ∧
    ((runExport st fs0).err = none ↔ (encVal 4 0 (.dict data)).2 = true) := by
  rw [runExport_ok st fs0 ks data hk hb]
  rcases henc : encVal 4 0 (.dict data) with ⟨out, ok⟩
  cases ok with
  | false =>
    rw [if_neg (by simp)]
    exact ⟨getAssoc_set_self fs0 backupName out, by simp⟩
  | true =>
    rw [if_pos rfl]
    exact ⟨getAssoc_set_self fs0 backupName out, by simp⟩

theorem export_write_emitted_witness :
    badStore.keys = .ok ["a".toList, "b".toList] ∧
    buildData badStore.read ["a".toList, "b".toList] [] =
      .ok [("a".toList, PyVal.int 1), ("b".toList, PyVal.other)] ∧
    (getAssoc (runExport badStore []).fs backupName =
      some (encVal 4 0 (.dict [("a".toList, PyVal.int 1), ("b".toList, PyVal.other)])).1 ∧
    ((runExport badStore []).err = none ↔
      (encVal 4 0 (.dict [("a".toList, PyVal.int 1), ("b".toList, PyVal.other)])).2 = true)) :=
  ⟨rfl, rfl, export_write_emitted badStore []
    ["a".toList, "b".toList] [("a".toList, PyVal.int 1), ("b".toList, PyVal.other)] rfl rfl⟩

/-- C5: an empty enumeration succeeds, prints the notice, and writes the
two-character empty JSON object, which parses as the empty object. -/
theorem export_empty_store (st : Store) (fs0 : List (List Char × List Char))
    (hk : st.keys = .ok []) :
    runExport st fs0 =
      ⟨setAssoc fs0 backupName ['\x7b', '\x7d'], [successMsg], none⟩ ∧
    parseJson ['\x7b', '\x7d'] = some (.obj []) := by
  constructor
  · rw [runExport, hk]
    rfl
  · rfl

theorem export_empty_store_witness :
    (Store.mk (.ok []) (fun _ => .ok .null)).keys = .ok [] ∧
    (runExport (Store.mk (.ok []) (fun _ => .ok .null)) [] =
      ⟨setAssoc [] backupName ['\x7b', '\x7d'], [successMsg], none⟩ ∧
    parseJson ['\x7b', '\x7d'] = some (.obj [])) :=
  ⟨rfl, export_empty_store (Store.mk (.ok []) (fun _ => .ok .null)) [] rfl⟩

/-- C6: on success the destination file at the fixed backup name holds the
serialization: pure ASCII text (hence valid UTF-8), syntactically valid
JSON whose top-level value is an object, and after every newline the run
of indentation spaces is a whole multiple of four. -/
theorem export_output_format (st : Store) (fs0 : List (List Char × List Char))
    (ks : List (List Char)) (data : List (List Char × PyVal))
    (jdata : List (List Char × JVal)) (hk : st.keys = .ok ks)
    (hb : buildData st.read ks [] = .ok data) (hj : toJMembers data = some jdata) :
    (runExport st fs0).fs =
      setAssoc fs0 backupName (serV 4 0 (.obj jdata)) ∧
    (encVal 4 0 (.dict data)).1 = serV 4 0 (.obj jdata) ∧
    (∀ d ∈ serV 4 0 (.obj jdata), d.toNat < 128) ∧
    parseJson (serV 4 0 (.obj jdata)) = some (.obj jdata) ∧
    chkIndent 4 (serV 4 0 (.obj jdata)) = true := by
  obtain ⟨hrun, heq⟩ := runExport_success st fs0 ks data jdata hk hb hj
  exact ⟨by rw [hrun], heq, serV_ascii (.obj jdata) 4 0, parseJson_serV 4 (.obj jdata),
    chkIndent_serV 4 (.obj jdata)⟩

theorem export_output_format_witness :
    demoStore.keys = .ok demoKeys ∧ buildData demoStore.read demoKeys [] = .ok demoData ∧
    toJMembers demoData = some demoJ ∧
    ((runExport demoStore []).fs = setAssoc [] backupName (serV 4 0 (.obj demoJ)) ∧
    (encVal 4 0 (.dict demoData)).1 = serV 4 0 (.obj demoJ) ∧
    (∀ d ∈ serV 4 0 (.obj demoJ), d.toNat < 128) ∧
    parseJson (serV 4 0 (.obj demoJ)) = some (.obj demoJ) ∧
    chkIndent 4 (serV 4 0 (.obj demoJ)) = true) :=
  ⟨rfl, rfl, rfl, export_output_format demoStore [] demoKeys demoData demoJ rfl rfl rfl⟩

/-- C7: the run is a deterministic function of the enumerated keys and the
values read — two runs against stores that enumerate and read identically
produce identical file systems, output and status. -/
theorem export_deterministic (s1 s2 : Store) (fs0 : List (List Char × List Char))
    (hk : s1.keys = s2.keys) (hr : ∀ k, s1.read k = s2.read k) :
    runExport s1 fs0 = runExport s2 fs0 := by
  have hbd : ∀ ks acc, buildData s1.read ks acc = buildData s2.read ks acc := by
    intro ks
    induction ks with
    | nil => intro acc; rfl
    | cons k0 ks ih =>
      intro acc
      rw [buildData, buildData, hr k0]
      rcases s2.read k0 with e | v
      · rfl
      · exact ih (setAssoc acc k0 v)
  rw [runExport, runExport, hk]
  rcases s2.keys with e | ks
  · rfl
  · dsimp only
    rw [hbd ks []]

theorem export_deterministic_witness :
    demoStore.keys = demoStore.keys ∧ (∀ k, demoStore.read k = demoStore.read k) ∧
    runExport demoStore [] = runExport demoStore [] :=
  ⟨rfl, fun _ => rfl,
    export_deterministic demoStore demoStore [] rfl (fun _ => rfl)⟩

/-- C8: if some stored value has no JSON representation, the run ends with
the serialization failure and the success notice is never printed. -/
theorem export_serialization_failure (st : Store) (fs0 : List (List Char × List Char))
    (ks : List (List Char)) (data : List (List Char × PyVal))
    (hk : st.keys = .ok ks) (hb : buildData st.read ks [] = .ok data)
    (hbad : toJMembers data = none) :
    (runExport st fs0).err = some ExportErr.serializationError ∧
    (runExport st fs0).stdout = [] := by
  have hjv : toJVal (.dict data) = none := by
    rw [toJVal, hbad]
    rfl
  have hf := (encVal_spec (.dict data) 4 0).2 hjv
  rw [runExport_ok st fs0 ks data hk hb]
  rcases henc : encVal 4 0 (.dict data) with ⟨out, ok⟩
  rw [henc] at hf
  dsimp only at hf
  subst hf
  rw [if_neg (by simp)]
  exact ⟨rfl, rfl⟩

theorem export_serialization_failure_witness :
    badStore.keys = .ok ["a".toList, "b".toList] ∧
    buildData badStore.read ["a".toList, "b".toList] [] =
      .ok [("a".toList, PyVal.int 1), ("b".toList, PyVal.other)] ∧
    toJMembers [("a".toList, PyVal.int 1), ("b".toList, PyVal.other)] = none ∧
    ((runExport badStore []).err = some ExportErr.serializationError ∧
      (runExport badStore []).stdout = []) :=
  ⟨rfl, rfl, rfl, export_serialization_failure badStore []
    ["a".toList, "b".toList] [("a".toList, PyVal.int 1), ("b".toList, PyVal.other)] rfl rfl rfl⟩

/-- C9: with distinct enumerated keys (as a store key space guarantees),
the mapping lists its keys in exactly enumeration order, and so does the
top-level object of the JSON document written — the dict preserves
insertion order and the serializer does not sort. -/
theorem export_order_preserved (st : Store) (fs0 : List (List Char × List Char))
    (ks : List (List Char)) (data : List (List Char × PyVal))
    (jdata : List (List Char × JVal)) (hk : st.keys = .ok ks) (hnd : ks.Nodup)
    (hb : buildData st.read ks [] = .ok data) (hj : toJMembers data = some jdata) :
    data.map Prod.fst = ks ∧ jdata.map Prod.fst = ks ∧
    parseJson (serV 4 0 (.obj jdata)) = some (.obj jdata) ∧
    (runExport st fs0).fs = setAssoc fs0 backupName (serV 4 0 (.obj jdata)) := by
  have horder : data.map Prod.fst = ks := by
    have := buildData_order st.read ks [] data (by simpa using hnd) hb
    simpa using this
  obtain ⟨hrun, -⟩ := runExport_success st fs0 ks data jdata hk hb hj
  exact ⟨horder, by rw [toJMembers_keys data jdata hj, horder],
    parseJson_serV 4 (.obj jdata), by rw [hrun]⟩

theorem export_order_preserved_witness :
    demoStore.keys = .ok demoKeys ∧ demoKeys.Nodup ∧
    buildData demoStore.read demoKeys [] = .ok demoData ∧
    toJMembers demoData = some demoJ ∧
    (demoData.map Prod.fst = demoKeys ∧ demoJ.map Prod.fst = demoKeys ∧
      parseJson (serV 4 0 (.obj demoJ)) = some (.obj demoJ) ∧
      (runExport demoStore []).fs = setAssoc [] backupName (serV 4 0 (.obj demoJ))) :=
  ⟨rfl, by decide, rfl, rfl,
    export_order_preserved demoStore [] demoKeys demoData demoJ rfl (by decide) rfl rfl⟩

/-- C10: a failing read of any enumerated key aborts the run before the
destination is opened: the file system is untouched and the failure is the
store one. -/
theorem export_read_failure_no_write (st : Store) (fs0 : List (List Char × List Char))
    (ks : List (List Char)) (k : List Char) (e : Unit) (hk : st.keys = .ok ks)
    (hmem : k ∈ ks) (hr : st.read k = .error e) :
    runExport st fs0 = ⟨fs0, [], some .storeUnavailable⟩ := by
  have hb := buildData_err st.read ks [] k e hmem hr
  rw [runExport, hk]
  dsimp only
  rw [hb]

theorem export_read_failure_no_write_witness :
    flakyStore.keys = .ok ["a".toList, "b".toList] ∧ "b".toList ∈ ["a".toList, "b".toList] ∧
    flakyStore.read "b".toList = .error () ∧
    runExport flakyStore [(backupName, "old".toList)] =
      ⟨[(backupName, "old".toList)], [], some ExportErr.storeUnavailable⟩ :=
  ⟨rfl, by decide, rfl,
    export_read_failure_no_write flakyStore [(backupName, "old".toList)]
      ["a".toList, "b".toList] "b".toList () rfl (by decide) rfl⟩

end ExportDb
